/-
Verification of the account and failure-report reconciliation engine of the
sign-in repository (scripts/chrome_extension/popup.js).

JavaScript strings are modelled as lists of characters (JStr); the string
primitives used by the source (trim, toLowerCase, endsWith, the truthiness
based or-default idiom) are modelled over that representation.  External host
primitives (the URL parser, the cookie store lookup, the open-tab identity
lookup) are modelled as function parameters: the source awaits them and
treats absence as an ordinary empty result.
-/
import Mathlib

abbrev JStr := List Char

def jsOr (a b : JStr) : JStr := if a = [] then b else a

def jsTrim (s : JStr) : JStr := (s.dropWhile Char.isWhitespace).rdropWhile Char.isWhitespace

def jsToLower (s : JStr) : JStr := s.map Char.toLower

def wsC : Char → Bool := Char.isWhitespace

def TrimmedL (l : JStr) : Prop :=
  l.dropWhile wsC = l ∧ l.rdropWhile wsC = l

def normalizeProvider (v : JStr) : JStr := jsToLower (jsTrim v)

structure AccountRecord where
  name : JStr
  provider : JStr
  session : JStr
  api_user : JStr
deriving DecidableEq, Repr

def dfltName (provider apiUser : JStr) : JStr := provider ++ '_' :: apiUser

def normalizeAccountRecord (input : AccountRecord) : Option AccountRecord :=
  let provider := normalizeProvider input.provider
  let apiUser := jsTrim input.api_user
  if provider = [] ∨ apiUser = [] then none
  else
    let dflt := dfltName provider apiUser
    let n1 := jsTrim (jsOr input.name dflt)
    some ⟨jsOr n1 dflt, provider, jsTrim input.session, apiUser⟩

def mergeAccountPair (existing incoming : AccountRecord) : AccountRecord :=
  let incomingSession := jsTrim incoming.session
  let existingSession := jsTrim existing.session
  ⟨jsTrim (jsOr incoming.name (jsOr existing.name [])),
   normalizeProvider (jsOr incoming.provider existing.provider),
   jsOr incomingSession existingSession,
   jsTrim (jsOr incoming.api_user (jsOr existing.api_user []))⟩

def Clean (r : AccountRecord) : Prop :=
  r.name ≠ [] ∧ jsTrim r.name = r.name ∧
  r.provider ≠ [] ∧ normalizeProvider r.provider = r.provider ∧
  r.api_user ≠ [] ∧ jsTrim r.api_user = r.api_user ∧
  jsTrim r.session = r.session

def mapGet {β : Type} (k : JStr) : List (JStr × β) → Option β
  | [] => none
  | (k2, v) :: rest => if k2 = k then some v else mapGet k rest

def mapSet {β : Type} (k : JStr) (v : β) : List (JStr × β) → List (JStr × β)
  | [] => [(k, v)]
  | (k2, v2) :: rest => if k2 = k then (k, v) :: rest else (k2, v2) :: mapSet k v rest

def mapValues {β : Type} (m : List (JStr × β)) : List β := m.map Prod.snd

def mapKeys {β : Type} (m : List (JStr × β)) : List JStr := m.map Prod.fst

def mergeKey (r : AccountRecord) : JStr := r.provider ++ '_' :: r.api_user

def upsert (m : List (JStr × AccountRecord)) (item : AccountRecord) :
    List (JStr × AccountRecord) :=
  match normalizeAccountRecord item with
  | none => m
  | some normalized =>
    match mapGet (mergeKey normalized) m with
    | none => mapSet (mergeKey normalized) normalized m
    | some existing => mapSet (mergeKey normalized) (mergeAccountPair existing normalized) m

def strLt : JStr → JStr → Bool
  | [], [] => false
  | [], _ :: _ => true
  | _ :: _, [] => false
  | a :: as, b :: bs => if a < b then true else if b < a then false else strLt as bs

def accLe (a b : AccountRecord) : Bool :=
  if a.provider = b.provider then strLt a.api_user b.api_user || a.api_user == b.api_user
  else strLt a.provider b.provider

def insertAcc (x : AccountRecord) : List AccountRecord → List AccountRecord
  | [] => [x]
  | y :: ys => if accLe x y then x :: y :: ys else y :: insertAcc x ys

def sortAccounts : List AccountRecord → List AccountRecord
  | [] => []
  | x :: xs => insertAcc x (sortAccounts xs)

def mergeAccounts (baseAccounts newAccounts : List AccountRecord) : List AccountRecord :=
  sortAccounts (mapValues ((baseAccounts ++ newAccounts).foldl upsert []))

def mkAcc (n p s a : String) : AccountRecord := ⟨n.toList, p.toList, s.toList, a.toList⟩

def MapInv (m : List (JStr × AccountRecord)) : Prop :=
  (∀ p ∈ m, p.1 = mergeKey p.2 ∧ Clean p.2) ∧ (mapKeys m).Nodup

def upsertVal (k : JStr) (cur : Option AccountRecord) (x : AccountRecord) :
    Option AccountRecord :=
  match normalizeAccountRecord x with
  | none => cur
  | some n =>
    if mergeKey n = k then
      some (match cur with | none => n | some e => mergeAccountPair e n)
    else cur

def appVal (cur : Option AccountRecord) (n : AccountRecord) : Option AccountRecord :=
  some (match cur with | none => n | some e => mergeAccountPair e n)

def relevant (k : JStr) (l : List AccountRecord) : List AccountRecord :=
  (l.filterMap normalizeAccountRecord).filter (fun n => mergeKey n == k)

def sessOf : Option AccountRecord → JStr
  | none => []
  | some e => e.session

def sessG (ss : List JStr) (x : JStr) : JStr := ss.foldl (fun a s => jsOr s a) x

def OptClean : Option AccountRecord → Prop
  | none => True
  | some e => Clean e

def lastD (ns : List AccountRecord) (d : AccountRecord) : AccountRecord :=
  match ns with
  | [] => d
  | n :: rest => lastD rest n

def lookupByKey (k : JStr) (l : List AccountRecord) : Option AccountRecord :=
  l.find? (fun v => mergeKey v == k)

def SortedA : List AccountRecord → Prop := List.Chain' (fun a b => accLe a b = true)

def normalizeHostname (hostname : JStr) : JStr :=
  (jsToLower (jsTrim hostname)).dropWhile (fun c => c == '.')

def jsEndsWith (s suffix : JStr) : Bool := suffix.isSuffixOf s

def isSameOrParentDomain (hostname candidateDomain : JStr) : Bool :=
  let host := normalizeHostname hostname
  let candidate := normalizeHostname candidateDomain
  if host = [] || candidate = [] then false
  else host == candidate || jsEndsWith host ('.' :: candidate)

def dedupeStep {α : Type} (keyFn : α → JStr) (m : List (JStr × α)) (item : α) :
    List (JStr × α) :=
  let key := keyFn item
  if key = [] then m else mapSet key item m

def dedupeByKey {α : Type} (items : List α) (keyFn : α → JStr) : List α :=
  mapValues (items.foldl (dedupeStep keyFn) [])

structure FailedSite where
  provider : JStr
  account_name : JStr
  api_user : JStr
  site_url : JStr
  login_url : JStr
  oauth_login_url : JStr
  reason : JStr
deriving DecidableEq, Repr

def pickOpenUrl (site : FailedSite) : JStr :=
  jsOr site.login_url (jsOr site.oauth_login_url site.site_url)

def siteDomain (parseDomain : JStr → JStr) (site : FailedSite) : JStr :=
  parseDomain (jsOr (pickOpenUrl site) site.site_url)

def findFailedSiteByHostname (parseDomain : JStr → JStr) (failedSites : List FailedSite)
    (hostname : JStr) : Option FailedSite :=
  let target := normalizeHostname hostname
  if target = [] then none
  else
    match failedSites.find?
        (fun site => normalizeHostname (siteDomain parseDomain site) == target) with
    | some s => some s
    | none =>
      failedSites.find? (fun site =>
        isSameOrParentDomain target (siteDomain parseDomain site) ||
        isSameOrParentDomain (siteDomain parseDomain site) target)

structure RawFailedReport (σ : Type) where
  generated_at : JStr
  source : JStr
  failed_count : Nat
  failed_sites : Option (List σ)
deriving Repr

structure FailedReport (σ : Type) where
  generated_at : JStr
  source : JStr
  failed_count : Nat
  failed_sites : List σ
deriving Repr

def normalizeFailedReport {σ : Type} (now : JStr) (report : RawFailedReport σ)
    (defaultSource : JStr) : FailedReport σ :=
  let failed := match report.failed_sites with
    | some l => l
    | none => []
  ⟨jsOr report.generated_at now, jsOr report.source defaultSource, failed.length, failed⟩

inductive Json where
  | null
  | bool (b : Bool)
  | num (n : Int)
  | str (s : JStr)
  | arr (elems : List Json)
  | obj (fields : List (JStr × Json))

def Json.isNull : Json → Bool
  | .null => true
  | _ => false

def jsString : Json → JStr
  | .null => "null".toList
  | .bool true => "true".toList
  | .bool false => "false".toList
  | .num n => (toString n).toList
  | .str s => s
  | .obj _ => "[object Object]".toList
  | .arr xs => List.intercalate [','] (xs.attach.map (fun x =>
      if Json.isNull x.1 then [] else jsString x.1))
decreasing_by
  simp_wf
  have := List.sizeOf_lt_of_mem x.2
  omega

def jsTruthy : Json → Bool
  | .null => false
  | .bool b => b
  | .num n => !(n == 0)
  | .str s => !(s == [])
  | .arr _ => true
  | .obj _ => true

def jsCoerceStr (j : Json) : JStr := if jsTruthy j then jsString j else []

def jsField (fields : List (JStr × Json)) (name : JStr) : Json :=
  (mapGet name fields).getD Json.null

def getStrField (fields : List (JStr × Json)) (name : JStr) : JStr :=
  jsCoerceStr (jsField fields name)

def normalizeAccountRecordJson (input : Json) : Option AccountRecord :=
  match input with
  | Json.obj fields =>
    normalizeAccountRecord
      ⟨getStrField fields "name".toList,
       getStrField fields "provider".toList,
       (match jsField fields "cookies".toList with
        | Json.obj cfields => getStrField cfields "session".toList
        | _ => []),
       getStrField fields "api_user".toList⟩
  | _ => none

def parseAccountsJsonArray (parsed : Option Json) (sourceLabel : JStr) :
    Except JStr (List AccountRecord) :=
  match parsed with
  | some (Json.arr elems) => Except.ok (elems.filterMap normalizeAccountRecordJson)
  | _ => Except.error (sourceLabel ++ " 不是 JSON 数组".toList)

def getSessionByDomain (cookieSession : JStr → JStr) (domain : JStr) : JStr :=
  let normalizedDomain := normalizeHostname domain
  if normalizedDomain = [] then [] else cookieSession normalizedDomain

def getApiUserFromOpenTab (tabApiUser : JStr → JStr) (domain : JStr) : JStr :=
  let normalizedDomain := normalizeHostname domain
  if normalizedDomain = [] then [] else tabApiUser normalizedDomain

def unknownIfEmpty (s : JStr) : JStr := jsOr s "unknown".toList

def missMsgDomain (site : FailedSite) : JStr :=
  unknownIfEmpty site.provider ++ "/".toList ++ unknownIfEmpty site.account_name ++
    ": 缺少域名或 provider".toList

def missMsgSession (site : FailedSite) : JStr :=
  site.provider ++ "/".toList ++ unknownIfEmpty site.account_name ++
    ": 未找到 session cookie".toList

def missMsgApiUser (site : FailedSite) : JStr :=
  site.provider ++ "/".toList ++ unknownIfEmpty site.account_name ++
    ": 缺少 api_user".toList

def extractedRecord (site : FailedSite) (session apiUser : JStr) : AccountRecord :=
  ⟨jsOr site.account_name (site.provider ++ '_' :: apiUser), site.provider, session, apiUser⟩

def batchDomain (parseDomain : JStr → JStr) (site : FailedSite) : JStr :=
  parseDomain (jsOr (jsOr (pickOpenUrl site) site.site_url) site.site_url)

def extractBatch (parseDomain cookieSession tabApiUser : JStr → JStr) :
    List FailedSite → List AccountRecord × List JStr
  | [] => ([], [])
  | site :: rest =>
    let r := extractBatch parseDomain cookieSession tabApiUser rest
    let domain := batchDomain parseDomain site
    if domain = [] ∨ site.provider = [] then (r.1, missMsgDomain site :: r.2)
    else
      let session := getSessionByDomain cookieSession domain
      if session = [] then (r.1, missMsgSession site :: r.2)
      else
        let apiUser := jsOr (getApiUserFromOpenTab tabApiUser domain) site.api_user
        if apiUser = [] then (r.1, missMsgApiUser site :: r.2)
        else (extractedRecord site session apiUser :: r.1, r.2)

def extractFailedResult (parseDomain cookieSession tabApiUser : JStr → JStr)
    (baseAccounts : List AccountRecord) (failedSites : List FailedSite) :
    List AccountRecord :=
  mergeAccounts baseAccounts (extractBatch parseDomain cookieSession tabApiUser failedSites).1

def buildCurrentAccountRecord (matchedSite : Option FailedSite)
    (provider apiUser session : JStr) : AccountRecord :=
  let providerForOutput := jsOr provider "__FILL_PROVIDER__".toList
  let apiUserForOutput := jsOr apiUser "__FILL_API_USER__".toList
  let fallbackName := providerForOutput ++ '_' :: apiUserForOutput
  let msName := match matchedSite with
    | some s => s.account_name
    | none => []
  ⟨jsOr (jsTrim (jsOr msName fallbackName)) fallbackName,
   providerForOutput, session, apiUserForOutput⟩

def extractCurrentResult (matchedSite : Option FailedSite)
    (provider apiUser session : JStr) (baseAccounts : List AccountRecord) :
    List AccountRecord × List JStr :=
  let currentRecord := buildCurrentAccountRecord matchedSite provider apiUser session
  let missingFields := (if provider = [] then ["provider".toList] else []) ++
    (if apiUser = [] then ["api_user".toList] else [])
  (if missingFields ≠ [] then [currentRecord]
   else mergeAccounts baseAccounts [currentRecord],
   missingFields)

def exSiteA : FailedSite :=
  ⟨"p".toList, "acct".toList, "7".toList, [], "a.com".toList, [], []⟩

def exSiteB : FailedSite :=
  ⟨"p".toList, "acct".toList, "7".toList, [], "x".toList, [], []⟩

def exSiteC : FailedSite :=
  ⟨[], "acct".toList, "7".toList, [], "a.com".toList, [], []⟩

/-- Concrete report input used by a witness. -/
def exReport : RawFailedReport Nat := ⟨"2024".toList, "src".toList, 99, some [5]⟩

theorem char_eq_iff_toNat (a b : Char) : a = b ↔ a.toNat = b.toNat := by
  constructor
  · intro h; rw [h]
  · intro h
    apply Char.ext
    exact UInt32.toNat.inj h

theorem char_toNat_ofNatAux (n : Nat) (h : n.isValidChar) : (Char.ofNatAux n h).toNat = n := rfl

theorem isWhitespace_iff (c : Char) :
    c.isWhitespace = true ↔ (c.toNat = 32 ∨ c.toNat = 9 ∨ c.toNat = 13 ∨ c.toNat = 10) := by
  unfold Char.isWhitespace
  simp only [Bool.or_eq_true, decide_eq_true_eq]
  rw [char_eq_iff_toNat c ' ', char_eq_iff_toNat c '\t', char_eq_iff_toNat c '\r',
    char_eq_iff_toNat c '\n']
  have h1 : (' ').toNat = 32 := rfl
  have h2 : ('\t').toNat = 9 := rfl
  have h3 : ('\r').toNat = 13 := rfl
  have h4 : ('\n').toNat = 10 := rfl
  rw [h1, h2, h3, h4]
  tauto

theorem toLower_upper_toNat (c : Char) (h : 65 ≤ c.toNat ∧ c.toNat ≤ 90) :
    (Char.toLower c).toNat = c.toNat + 32 := by
  unfold Char.toLower
  rw [if_pos (by exact ⟨h.1, h.2⟩)]
  have hv : (c.toNat + 32).isValidChar := by
    left
    show c.toNat + 32 < 55296
    omega
  unfold Char.ofNat
  rw [dif_pos hv]
  exact char_toNat_ofNatAux _ hv

theorem toLower_not_upper (c : Char) (h : ¬(65 ≤ c.toNat ∧ c.toNat ≤ 90)) :
    Char.toLower c = c := by
  unfold Char.toLower
  rw [if_neg h]

theorem isWhitespace_toLower (c : Char) : (Char.toLower c).isWhitespace = c.isWhitespace := by
  by_cases h : 65 ≤ c.toNat ∧ c.toNat ≤ 90
  · have h1 := toLower_upper_toNat c h
    have h2 : (Char.toLower c).isWhitespace = false := by
      rw [← Bool.not_eq_true]
      rw [isWhitespace_iff]
      omega
    have h3 : c.isWhitespace = false := by
      rw [← Bool.not_eq_true]
      rw [isWhitespace_iff]
      omega
    rw [h2, h3]
  · rw [toLower_not_upper c h]

theorem toLower_idem (c : Char) : Char.toLower (Char.toLower c) = Char.toLower c := by
  by_cases h : 65 ≤ c.toNat ∧ c.toNat ≤ 90
  · have h1 := toLower_upper_toNat c h
    apply toLower_not_upper
    omega
  · rw [toLower_not_upper c h]
    exact toLower_not_upper c h

theorem jsTrim_def (s : JStr) : jsTrim s = (s.dropWhile Char.isWhitespace).rdropWhile Char.isWhitespace := rfl

theorem trimmed_of {l : JStr} (h : TrimmedL l) : jsTrim l = l := by
  rw [jsTrim_def]
  show (l.dropWhile wsC).rdropWhile wsC = l
  rw [h.1, h.2]

theorem trimmedL_iff (l : JStr) :
    TrimmedL l ↔ (∀ h0 : 0 < l.length, ¬wsC (l.get ⟨0, h0⟩)) ∧ (∀ hl : l ≠ [], ¬wsC (l.getLast hl)) := by
  unfold TrimmedL
  rw [List.dropWhile_eq_self_iff, List.rdropWhile_eq_self_iff]

theorem jsTrim_trimmed (l : JStr) : TrimmedL (jsTrim l) := by
  have hjs : jsTrim l = (l.dropWhile wsC).rdropWhile wsC := rfl
  constructor
  · rw [hjs, List.dropWhile_eq_self_iff]
    intro h0
    have hpre : (List.rdropWhile wsC (l.dropWhile wsC)) <+: (l.dropWhile wsC) :=
      List.rdropWhile_prefix _ _
    have hlen : 0 < (l.dropWhile wsC).length := by
      have := List.IsPrefix.length_le hpre
      omega
    have hg := List.IsPrefix.getElem hpre h0
    simp only [List.get_eq_getElem]
    rw [hg]
    have := List.dropWhile_eq_self_iff.mp (List.dropWhile_idempotent wsC l) hlen
    simpa using this
  · rw [hjs]
    exact List.rdropWhile_idempotent wsC _

theorem trimmedL_append {a b : JStr} (ha : TrimmedL a) (hb : TrimmedL b)
    (hna : a ≠ []) (hnb : b ≠ []) : TrimmedL (a ++ b) := by
  rw [trimmedL_iff] at ha hb ⊢
  constructor
  · intro h0
    have hla : 0 < a.length := by
      cases a with
      | nil => exact absurd rfl hna
      | cons x xs => simp
    simp only [List.get_eq_getElem]
    rw [List.getElem_append_left hla]
    have := ha.1 hla
    simpa using this
  · intro hl
    rw [List.getLast_append_of_ne_nil hnb]
    exact hb.2 hnb

theorem trimmedL_map {l : JStr} (f : Char → Char) (hf : ∀ c, wsC (f c) = wsC c)
    (h : TrimmedL l) : TrimmedL (l.map f) := by
  rw [trimmedL_iff] at h ⊢
  constructor
  · intro h0
    have hla : 0 < l.length := by
      rw [List.length_map] at h0
      exact h0
    have hgm : (l.map f).get ⟨0, h0⟩ = f (l.get ⟨0, hla⟩) := by
      simp
    rw [hgm, hf]
    exact h.1 hla
  · intro hl
    have hnl : l ≠ [] := by
      intro hc
      rw [hc] at hl
      simp at hl
    have hgm : (l.map f).getLast hl = f (l.getLast hnl) := by
      rw [List.getLast_eq_getElem, List.getLast_eq_getElem]
      simp
    rw [hgm, hf]
    exact h.2 hnl

theorem jsTrim_idem (l : JStr) : jsTrim (jsTrim l) = jsTrim l :=
  trimmed_of (jsTrim_trimmed l)

theorem normalizeProvider_trimmed (v : JStr) : TrimmedL (normalizeProvider v) :=
  trimmedL_map Char.toLower isWhitespace_toLower (jsTrim_trimmed v)

theorem normalizeProvider_idem (v : JStr) :
    normalizeProvider (normalizeProvider v) = normalizeProvider v := by
  show jsToLower (jsTrim (normalizeProvider v)) = normalizeProvider v
  rw [trimmed_of (normalizeProvider_trimmed v)]
  show (List.map Char.toLower (List.map Char.toLower (jsTrim v))) = normalizeProvider v
  rw [List.map_map]
  apply List.map_congr_left
  intro a _
  exact toLower_idem a

theorem jsOr_ne {a : JStr} (b : JStr) (h : a ≠ []) : jsOr a b = a := by
  unfold jsOr
  rw [if_neg h]

theorem jsOr_nil (b : JStr) : jsOr [] b = b := rfl

theorem jsOr_nil_right (a : JStr) : jsOr a [] = a := by
  unfold jsOr
  split
  · simp [*]
  · rfl

theorem dfltName_trimmed {p a : JStr} (hp : TrimmedL p) (ha : TrimmedL a)
    (hpn : p ≠ []) (han : a ≠ []) : TrimmedL (dfltName p a) := by
  unfold dfltName
  have h1 : TrimmedL (['_'] ++ a) := by
    apply trimmedL_append _ ha _ han
    · constructor <;> decide
    · simp
  have : p ++ '_' :: a = p ++ (['_'] ++ a) := by simp
  rw [this]
  apply trimmedL_append hp h1 hpn
  simp

theorem dfltName_ne (p a : JStr) : dfltName p a ≠ [] := by
  unfold dfltName
  simp

theorem norm_clean {x n : AccountRecord} (h : normalizeAccountRecord x = some n) : Clean n := by
  unfold normalizeAccountRecord at h
  by_cases hg : normalizeProvider x.provider = [] ∨ jsTrim x.api_user = []
  · rw [if_pos hg] at h
    exact absurd h (by simp)
  · rw [if_neg hg] at h
    push_neg at hg
    injection h with h
    subst h
    have hpt := normalizeProvider_trimmed x.provider
    have hat := jsTrim_trimmed x.api_user
    have hdt := dfltName_trimmed hpt hat hg.1 hg.2
    refine ⟨?_, ?_, hg.1, normalizeProvider_idem _, hg.2, jsTrim_idem _, jsTrim_idem _⟩
    · by_cases hn1 : jsTrim (jsOr x.name (dfltName (normalizeProvider x.provider) (jsTrim x.api_user))) = []
      · simp only [hn1, jsOr_nil]
        exact dfltName_ne _ _
      · simp only [jsOr_ne _ hn1]
        exact hn1
    · by_cases hn1 : jsTrim (jsOr x.name (dfltName (normalizeProvider x.provider) (jsTrim x.api_user))) = []
      · simp only [hn1, jsOr_nil]
        exact trimmed_of hdt
      · simp only [jsOr_ne _ hn1]
        exact jsTrim_idem _

theorem clean_norm_fix {r : AccountRecord} (h : Clean r) : normalizeAccountRecord r = some r := by
  obtain ⟨hn, hnt, hp, hpf, ha, haf, hs⟩ := h
  unfold normalizeAccountRecord
  rw [hpf, haf]
  rw [if_neg (by push_neg; exact ⟨hp, ha⟩)]
  simp only []
  rw [jsOr_ne _ hn, hnt, jsOr_ne _ hn, hs]

theorem mergePair_clean_eq {e n : AccountRecord} (he : Clean e) (hn : Clean n) :
    mergeAccountPair e n = ⟨n.name, n.provider, jsOr n.session e.session, n.api_user⟩ := by
  obtain ⟨hen, hent, hep, hepf, hea, heaf, hes⟩ := he
  obtain ⟨hnn, hnnt, hnp, hnpf, hna, hnaf, hns⟩ := hn
  unfold mergeAccountPair
  rw [jsOr_ne _ hnn, hnnt, jsOr_ne _ hnp, hnpf, jsOr_ne _ hna, hnaf, hns, hes]

theorem clean_mergePair {e n : AccountRecord} (he : Clean e) (hn : Clean n) :
    Clean (mergeAccountPair e n) := by
  rw [mergePair_clean_eq he hn]
  obtain ⟨hen, hent, hep, hepf, hea, heaf, hes⟩ := he
  obtain ⟨hnn, hnnt, hnp, hnpf, hna, hnaf, hns⟩ := hn
  refine ⟨hnn, hnnt, hnp, hnpf, hna, hnaf, ?_⟩
  by_cases h : n.session = []
  · simp only [h, jsOr_nil]
    exact hes
  · rw [jsOr_ne _ h]
    exact hns

theorem mapGet_mapSet {β : Type} (k k2 : JStr) (v : β) (m : List (JStr × β)) :
    mapGet k (mapSet k2 v m) = if k2 = k then some v else mapGet k m := by
  induction m with
  | nil =>
    show (if k2 = k then some v else mapGet k ([] : List (JStr × β))) = _
    rfl
  | cons p rest ih =>
    obtain ⟨k3, v3⟩ := p
    show mapGet k (if k3 = k2 then (k2, v) :: rest else (k3, v3) :: mapSet k2 v rest) = _
    by_cases h3 : k3 = k2
    · rw [if_pos h3]
      show (if k2 = k then some v else mapGet k rest) = _
      by_cases hk : k2 = k
      · rw [if_pos hk, if_pos hk]
      · rw [if_neg hk, if_neg hk]
        show mapGet k rest = if k3 = k then some v3 else mapGet k rest
        rw [if_neg (by rw [h3]; exact hk)]
    · rw [if_neg h3]
      show (if k3 = k then some v3 else mapGet k (mapSet k2 v rest)) = _
      by_cases hk : k3 = k
      · rw [if_pos hk]
        have hk2 : ¬ k2 = k := fun h => h3 (hk.trans h.symm)
        rw [if_neg hk2]
        show some v3 = if k3 = k then some v3 else mapGet k rest
        rw [if_pos hk]
      · rw [if_neg hk, ih]
        by_cases hk2 : k2 = k
        · rw [if_pos hk2, if_pos hk2]
        · rw [if_neg hk2, if_neg hk2]
          show mapGet k rest = if k3 = k then some v3 else mapGet k rest
          rw [if_neg hk]

theorem mapGet_cons {β : Type} (k k2 : JStr) (v : β) (rest : List (JStr × β)) :
    mapGet k ((k2, v) :: rest) = if k2 = k then some v else mapGet k rest := rfl

theorem mapGet_nil {β : Type} (k : JStr) : mapGet k ([] : List (JStr × β)) = none := rfl

theorem mapSet_cons {β : Type} (k k2 : JStr) (v v2 : β) (rest : List (JStr × β)) :
    mapSet k v ((k2, v2) :: rest) =
      if k2 = k then (k, v) :: rest else (k2, v2) :: mapSet k v rest := rfl

theorem mapSet_nil {β : Type} (k : JStr) (v : β) :
    mapSet k v ([] : List (JStr × β)) = [(k, v)] := rfl

theorem mapKeys_cons {β : Type} (k : JStr) (v : β) (rest : List (JStr × β)) :
    mapKeys ((k, v) :: rest) = k :: mapKeys rest := rfl

theorem mapKeys_nil {β : Type} : mapKeys ([] : List (JStr × β)) = [] := rfl

theorem mapValues_cons {β : Type} (k : JStr) (v : β) (rest : List (JStr × β)) :
    mapValues ((k, v) :: rest) = v :: mapValues rest := rfl

theorem mapGet_none_iff {β : Type} (k : JStr) (m : List (JStr × β)) :
    mapGet k m = none ↔ k ∉ mapKeys m := by
  induction m with
  | nil =>
    rw [mapGet_nil, mapKeys_nil]
    constructor
    · intro _ hc
      exact (List.not_mem_nil k) hc
    · intro _
      rfl
  | cons p rest ih =>
    obtain ⟨k2, v2⟩ := p
    rw [mapGet_cons, mapKeys_cons]
    by_cases h : k2 = k
    · rw [if_pos h]
      constructor
      · intro hc
        exact absurd hc (by intro hcc; exact Option.noConfusion hcc)
      · intro hc
        rw [h] at hc
        exact absurd (List.mem_cons_self _ _) hc
    · rw [if_neg h, ih]
      constructor
      · intro hn hc
        rcases List.mem_cons.mp hc with hc | hc
        · exact h hc.symm
        · exact hn hc
      · intro hn hc
        exact hn (List.mem_cons_of_mem _ hc)

theorem mapGet_some_mem {β : Type} {k : JStr} {v : β} {m : List (JStr × β)}
    (h : mapGet k m = some v) : (k, v) ∈ m := by
  induction m with
  | nil => exact absurd h (by rw [mapGet_nil]; intro hc; exact Option.noConfusion hc)
  | cons p rest ih =>
    obtain ⟨k2, v2⟩ := p
    rw [mapGet_cons] at h
    by_cases hk : k2 = k
    · rw [if_pos hk] at h
      injection h with h
      subst hk
      subst h
      exact List.mem_cons_self _ _
    · rw [if_neg hk] at h
      exact List.mem_cons_of_mem _ (ih h)

theorem mem_mapSet {β : Type} {p : JStr × β} {k : JStr} {v : β} {m : List (JStr × β)}
    (h : p ∈ mapSet k v m) : p = (k, v) ∨ p ∈ m := by
  induction m with
  | nil =>
    rw [mapSet_nil] at h
    rcases List.mem_cons.mp h with h | h
    · exact Or.inl h
    · exact absurd h (List.not_mem_nil p)
  | cons q rest ih =>
    obtain ⟨k2, v2⟩ := q
    rw [mapSet_cons] at h
    by_cases hk : k2 = k
    · rw [if_pos hk] at h
      rcases List.mem_cons.mp h with h | h
      · exact Or.inl h
      · exact Or.inr (List.mem_cons_of_mem _ h)
    · rw [if_neg hk] at h
      rcases List.mem_cons.mp h with h | h
      · exact Or.inr (by rw [h]; exact List.mem_cons_self _ _)
      · rcases ih h with h | h
        · exact Or.inl h
        · exact Or.inr (List.mem_cons_of_mem _ h)

theorem mapKeys_mapSet {β : Type} (k : JStr) (v : β) (m : List (JStr × β)) :
    mapKeys (mapSet k v m) = if k ∈ mapKeys m then mapKeys m else mapKeys m ++ [k] := by
  induction m with
  | nil =>
    rw [mapSet_nil, mapKeys_nil, mapKeys_cons, mapKeys_nil]
    rw [if_neg (List.not_mem_nil k)]
    rfl
  | cons p rest ih =>
    obtain ⟨k2, v2⟩ := p
    rw [mapSet_cons]
    by_cases hk : k2 = k
    · rw [if_pos hk]
      subst hk
      rw [mapKeys_cons, mapKeys_cons]
      rw [if_pos (List.mem_cons_self k2 _)]
    · rw [if_neg hk, mapKeys_cons, mapKeys_cons, ih]
      have hmem : (k ∈ k2 :: mapKeys rest) ↔ k ∈ mapKeys rest := by
        constructor
        · intro hc
          rcases List.mem_cons.mp hc with hc | hc
          · exact absurd hc.symm hk
          · exact hc
        · exact List.mem_cons_of_mem _
      by_cases hm : k ∈ mapKeys rest
      · rw [if_pos hm, if_pos (hmem.mpr hm)]
      · rw [if_neg hm, if_neg (fun hc => hm (hmem.mp hc))]
        rfl

theorem mapSet_append_of_not_mem {β : Type} {k : JStr} (v : β) {m : List (JStr × β)}
    (h : k ∉ mapKeys m) : mapSet k v m = m ++ [(k, v)] := by
  induction m with
  | nil => rfl
  | cons p rest ih =>
    obtain ⟨k2, v2⟩ := p
    rw [mapSet_cons]
    rw [mapKeys_cons] at h
    have hk : ¬ k2 = k := fun hc => h (hc ▸ List.mem_cons_self k2 _)
    rw [if_neg hk]
    rw [ih (fun hc => h (List.mem_cons_of_mem _ hc))]
    rfl

theorem upsert_none {x : AccountRecord} (m : List (JStr × AccountRecord))
    (h : normalizeAccountRecord x = none) : upsert m x = m := by
  unfold upsert
  rw [h]

theorem upsert_some_new {x n : AccountRecord} {m : List (JStr × AccountRecord)}
    (hn : normalizeAccountRecord x = some n) (hg : mapGet (mergeKey n) m = none) :
    upsert m x = mapSet (mergeKey n) n m := by
  unfold upsert
  rw [hn]
  show (match mapGet (mergeKey n) m with
    | none => mapSet (mergeKey n) n m
    | some existing => mapSet (mergeKey n) (mergeAccountPair existing n) m) = _
  rw [hg]

theorem upsert_some_existing {x n e : AccountRecord} {m : List (JStr × AccountRecord)}
    (hn : normalizeAccountRecord x = some n) (hg : mapGet (mergeKey n) m = some e) :
    upsert m x = mapSet (mergeKey n) (mergeAccountPair e n) m := by
  unfold upsert
  rw [hn]
  show (match mapGet (mergeKey n) m with
    | none => mapSet (mergeKey n) n m
    | some existing => mapSet (mergeKey n) (mergeAccountPair existing n) m) = _
  rw [hg]

theorem mergeKey_mergePair {e n : AccountRecord} (hn : Clean n) :
    mergeKey (mergeAccountPair e n) = mergeKey n := by
  obtain ⟨hnn, hnnt, hnp, hnpf, hna, hnaf, hns⟩ := hn
  unfold mergeKey mergeAccountPair
  simp only []
  rw [jsOr_ne _ hnp, hnpf, jsOr_ne _ hna, hnaf]

theorem MapInv_nil : MapInv [] := by
  constructor
  · intro p hp
    exact absurd hp (List.not_mem_nil p)
  · rw [mapKeys_nil]
    exact List.nodup_nil

theorem MapInv_mapSet {m : List (JStr × AccountRecord)} {v : AccountRecord}
    (hm : MapInv m) (hv : Clean v) : MapInv (mapSet (mergeKey v) v m) := by
  constructor
  · intro p hp
    rcases mem_mapSet hp with h | h
    · rw [h]
      exact ⟨rfl, hv⟩
    · exact hm.1 p h
  · rw [mapKeys_mapSet]
    by_cases h : mergeKey v ∈ mapKeys m
    · rw [if_pos h]
      exact hm.2
    · rw [if_neg h]
      rw [List.nodup_append]
      exact ⟨hm.2, List.nodup_singleton _, by
        intro a ha hb
        rw [List.mem_singleton] at hb
        subst hb
        exact h ha⟩

theorem MapInv_upsert {m : List (JStr × AccountRecord)} (x : AccountRecord)
    (hm : MapInv m) : MapInv (upsert m x) := by
  cases hnx : normalizeAccountRecord x with
  | none => rw [upsert_none m hnx]; exact hm
  | some n =>
    have hcn : Clean n := norm_clean hnx
    cases hg : mapGet (mergeKey n) m with
    | none =>
      rw [upsert_some_new hnx hg]
      exact MapInv_mapSet hm hcn
    | some e =>
      rw [upsert_some_existing hnx hg]
      have hce : Clean e := (hm.1 _ (mapGet_some_mem hg)).2
      have h := MapInv_mapSet hm (clean_mergePair hce hcn)
      rw [mergeKey_mergePair hcn] at h
      exact h

theorem MapInv_foldl {m : List (JStr × AccountRecord)} (l : List AccountRecord)
    (hm : MapInv m) : MapInv (l.foldl upsert m) := by
  induction l generalizing m with
  | nil => exact hm
  | cons x rest ih =>
    rw [List.foldl_cons]
    exact ih (MapInv_upsert x hm)

theorem keys_mono_upsert {k : JStr} {m : List (JStr × AccountRecord)} (x : AccountRecord)
    (h : k ∈ mapKeys m) : k ∈ mapKeys (upsert m x) := by
  cases hnx : normalizeAccountRecord x with
  | none => rw [upsert_none m hnx]; exact h
  | some n =>
    cases hg : mapGet (mergeKey n) m with
    | none =>
      rw [upsert_some_new hnx hg, mapKeys_mapSet]
      split
      · exact h
      · exact List.mem_append_left _ h
    | some e =>
      rw [upsert_some_existing hnx hg, mapKeys_mapSet]
      split
      · exact h
      · exact List.mem_append_left _ h

theorem keys_mono_foldl {k : JStr} {m : List (JStr × AccountRecord)} (l : List AccountRecord)
    (h : k ∈ mapKeys m) : k ∈ mapKeys (l.foldl upsert m) := by
  induction l generalizing m with
  | nil => exact h
  | cons x rest ih =>
    rw [List.foldl_cons]
    exact ih (keys_mono_upsert x h)

theorem mem_keys_upsert_self {x n : AccountRecord} (m : List (JStr × AccountRecord))
    (hn : normalizeAccountRecord x = some n) : mergeKey n ∈ mapKeys (upsert m x) := by
  cases hg : mapGet (mergeKey n) m with
  | none =>
    rw [upsert_some_new hn hg, mapKeys_mapSet]
    rw [if_neg ((mapGet_none_iff _ _).mp hg)]
    exact List.mem_append_right _ (List.mem_singleton.mpr rfl)
  | some e =>
    rw [upsert_some_existing hn hg, mapKeys_mapSet]
    have hmem : mergeKey n ∈ mapKeys m := by
      by_contra hc
      rw [← mapGet_none_iff] at hc
      rw [hc] at hg
      exact Option.noConfusion hg
    rw [if_pos hmem]
    exact hmem

theorem mem_keys_foldl {x n : AccountRecord} {l : List AccountRecord}
    (m : List (JStr × AccountRecord)) (hx : x ∈ l) (hn : normalizeAccountRecord x = some n) :
    mergeKey n ∈ mapKeys (l.foldl upsert m) := by
  induction l generalizing m with
  | nil => exact absurd hx (List.not_mem_nil x)
  | cons y rest ih =>
    rw [List.foldl_cons]
    rcases List.mem_cons.mp hx with h | h
    · subst h
      exact keys_mono_foldl rest (mem_keys_upsert_self m hn)
    · exact ih (upsert m y) h

theorem mapKeys_upsert_of_mem {x : AccountRecord} {m : List (JStr × AccountRecord)}
    (h : ∀ n, normalizeAccountRecord x = some n → mergeKey n ∈ mapKeys m) :
    mapKeys (upsert m x) = mapKeys m := by
  cases hnx : normalizeAccountRecord x with
  | none => rw [upsert_none m hnx]
  | some n =>
    have hmem := h n hnx
    have hg : ∃ e, mapGet (mergeKey n) m = some e := by
      cases hg : mapGet (mergeKey n) m with
      | none => exact absurd ((mapGet_none_iff _ _).mp hg) (by push_neg; exact hmem)
      | some e => exact ⟨e, rfl⟩
    obtain ⟨e, hg⟩ := hg
    rw [upsert_some_existing hnx hg, mapKeys_mapSet, if_pos hmem]

theorem mapKeys_foldl_of_mem {l : List AccountRecord} {m : List (JStr × AccountRecord)}
    (h : ∀ x ∈ l, ∀ n, normalizeAccountRecord x = some n → mergeKey n ∈ mapKeys m) :
    mapKeys (l.foldl upsert m) = mapKeys m := by
  induction l generalizing m with
  | nil => rfl
  | cons x rest ih =>
    rw [List.foldl_cons]
    have hstep : mapKeys (upsert m x) = mapKeys m :=
      mapKeys_upsert_of_mem (h x (List.mem_cons_self x rest))
    rw [ih, hstep]
    intro y hy n hn
    rw [hstep]
    exact h y (List.mem_cons_of_mem _ hy) n hn

theorem upsertVal_none {x : AccountRecord} (k : JStr) (cur : Option AccountRecord)
    (hnx : normalizeAccountRecord x = none) : upsertVal k cur x = cur := by
  unfold upsertVal
  rw [hnx]

theorem upsertVal_some {x n : AccountRecord} (k : JStr) (cur : Option AccountRecord)
    (hnx : normalizeAccountRecord x = some n) :
    upsertVal k cur x = if mergeKey n = k then appVal cur n else cur := by
  unfold upsertVal appVal
  rw [hnx]

theorem mapGet_upsert (k : JStr) (m : List (JStr × AccountRecord)) (x : AccountRecord) :
    mapGet k (upsert m x) = upsertVal k (mapGet k m) x := by
  cases hnx : normalizeAccountRecord x with
  | none =>
    rw [upsert_none m hnx, upsertVal_none k _ hnx]
  | some n =>
    rw [upsertVal_some k _ hnx]
    by_cases hk : mergeKey n = k
    · rw [if_pos hk]
      cases hg : mapGet (mergeKey n) m with
      | none =>
        rw [upsert_some_new hnx hg, mapGet_mapSet, if_pos hk]
        unfold appVal
        rw [← hk, hg]
      | some e =>
        rw [upsert_some_existing hnx hg, mapGet_mapSet, if_pos hk]
        unfold appVal
        rw [← hk, hg]
    · rw [if_neg hk]
      cases hg : mapGet (mergeKey n) m with
      | none => rw [upsert_some_new hnx hg, mapGet_mapSet, if_neg hk]
      | some e => rw [upsert_some_existing hnx hg, mapGet_mapSet, if_neg hk]

theorem mapGet_foldl (k : JStr) (m : List (JStr × AccountRecord)) (l : List AccountRecord) :
    mapGet k (l.foldl upsert m) = l.foldl (upsertVal k) (mapGet k m) := by
  induction l generalizing m with
  | nil => rfl
  | cons x rest ih =>
    rw [List.foldl_cons, List.foldl_cons, ih, mapGet_upsert]

theorem foldl_upsertVal_relevant (k : JStr) (cur : Option AccountRecord)
    (l : List AccountRecord) :
    l.foldl (upsertVal k) cur = (relevant k l).foldl appVal cur := by
  induction l generalizing cur with
  | nil => rfl
  | cons x rest ih =>
    rw [List.foldl_cons]
    unfold relevant
    rw [List.filterMap_cons]
    cases hnx : normalizeAccountRecord x with
    | none =>
      rw [upsertVal_none k cur hnx]
      exact ih cur
    | some n =>
      by_cases hk : mergeKey n = k
      · rw [upsertVal_some k cur hnx, if_pos hk, List.filter_cons_of_pos (by simp [hk])]
        rw [List.foldl_cons]
        exact ih (appVal cur n)
      · rw [upsertVal_some k cur hnx, if_neg hk, List.filter_cons_of_neg (by simp [hk])]
        exact ih cur

theorem jsOr_assoc (a b c : JStr) : jsOr (jsOr a b) c = jsOr a (jsOr b c) := by
  by_cases ha : a = []
  · rw [ha, jsOr_nil, jsOr_nil]
  · rw [jsOr_ne _ ha, jsOr_ne _ ha, jsOr_ne _ ha]

theorem sessG_nil (x : JStr) : sessG [] x = x := rfl

theorem sessG_cons (s : JStr) (ss : List JStr) (x : JStr) :
    sessG (s :: ss) x = sessG ss (jsOr s x) := rfl

theorem sessG_comp (ss : List JStr) (x : JStr) : sessG ss x = jsOr (sessG ss []) x := by
  induction ss generalizing x with
  | nil =>
    rw [sessG_nil, sessG_nil, jsOr_nil]
  | cons s rest ih =>
    rw [sessG_cons, sessG_cons, ih (jsOr s x), ih (jsOr s []), jsOr_nil_right, jsOr_assoc]

theorem sessG_idem (ss : List JStr) (x : JStr) : sessG ss (sessG ss x) = sessG ss x := by
  rw [sessG_comp ss x, sessG_comp ss (jsOr (sessG ss []) x), ← jsOr_assoc]
  by_cases h : sessG ss [] = []
  · rw [h, jsOr_nil]
  · rw [jsOr_ne _ h]

theorem sessG_trimmed {ss : List JStr} {x : JStr} (hss : ∀ s ∈ ss, jsTrim s = s)
    (hx : jsTrim x = x) : jsTrim (sessG ss x) = sessG ss x := by
  induction ss generalizing x with
  | nil => exact hx
  | cons s rest ih =>
    rw [sessG_cons]
    apply ih (fun t ht => hss t (List.mem_cons_of_mem _ ht))
    by_cases h : s = []
    · rw [h, jsOr_nil]
      exact hx
    · rw [jsOr_ne _ h]
      exact hss s (List.mem_cons_self _ _)

theorem OptClean_appVal {cur : Option AccountRecord} {n : AccountRecord}
    (hc : OptClean cur) (hn : Clean n) : OptClean (appVal cur n) := by
  cases cur with
  | none => exact hn
  | some e => exact clean_mergePair hc hn

theorem sessOf_appVal {cur : Option AccountRecord} {n : AccountRecord}
    (hc : OptClean cur) (hn : Clean n) : sessOf (appVal cur n) = jsOr n.session (sessOf cur) := by
  cases cur with
  | none =>
    show n.session = jsOr n.session []
    rw [jsOr_nil_right]
  | some e =>
    show (mergeAccountPair e n).session = jsOr n.session e.session
    rw [mergePair_clean_eq hc hn]

theorem lastD_clean {ns : List AccountRecord} {d : AccountRecord}
    (hd : Clean d) (hns : ∀ n ∈ ns, Clean n) : Clean (lastD ns d) := by
  induction ns generalizing d with
  | nil => exact hd
  | cons n rest ih =>
    exact ih (hns n (List.mem_cons_self _ _)) (fun t ht => hns t (List.mem_cons_of_mem _ ht))

theorem foldl_appVal_closed (ns : List AccountRecord) (n0 : AccountRecord)
    (cur : Option AccountRecord) (hn0 : Clean n0) (hns : ∀ n ∈ ns, Clean n)
    (hc : OptClean cur) :
    (n0 :: ns).foldl appVal cur =
      some ⟨(lastD ns n0).name, (lastD ns n0).provider,
        sessG ((n0 :: ns).map AccountRecord.session) (sessOf cur),
        (lastD ns n0).api_user⟩ := by
  induction ns generalizing n0 cur with
  | nil =>
    show appVal cur n0 = some ⟨n0.name, n0.provider, sessG [n0.session] (sessOf cur), n0.api_user⟩
    cases cur with
    | none =>
      show some n0 = some ⟨n0.name, n0.provider, jsOr n0.session [], n0.api_user⟩
      rw [jsOr_nil_right]
    | some e =>
      show some (mergeAccountPair e n0) =
        some ⟨n0.name, n0.provider, jsOr n0.session (sessOf (some e)), n0.api_user⟩
      rw [mergePair_clean_eq hc hn0]
      rfl
  | cons n1 rest ih =>
    show (n1 :: rest).foldl appVal (appVal cur n0) = _
    rw [ih n1 (appVal cur n0) (hns n1 (List.mem_cons_self _ _))
      (fun t ht => hns t (List.mem_cons_of_mem _ ht)) (OptClean_appVal hc hn0)]
    rw [sessOf_appVal hc hn0]
    rfl

theorem foldl_appVal_absorb (ns : List AccountRecord) (cur : Option AccountRecord)
    (hns : ∀ n ∈ ns, Clean n) (hc : OptClean cur) :
    ns.foldl appVal (ns.foldl appVal cur) = ns.foldl appVal cur := by
  cases ns with
  | nil => rfl
  | cons n0 rest =>
    have hn0 : Clean n0 := hns n0 (List.mem_cons_self _ _)
    have hrest : ∀ n ∈ rest, Clean n := fun t ht => hns t (List.mem_cons_of_mem _ ht)
    have hcf := foldl_appVal_closed rest n0 cur hn0 hrest hc
    have hlast : Clean (lastD rest n0) := lastD_clean hn0 hrest
    obtain ⟨hln, hlnt, hlp, hlpf, hla, hlaf, hls⟩ := hlast
    have hsesstr : jsTrim (sessG ((n0 :: rest).map AccountRecord.session) (sessOf cur)) =
        sessG ((n0 :: rest).map AccountRecord.session) (sessOf cur) := by
      apply sessG_trimmed
      · intro s hs
        rw [List.mem_map] at hs
        obtain ⟨t, ht, hts⟩ := hs
        rw [← hts]
        exact (hns t ht).2.2.2.2.2.2
      · cases cur with
        | none => rfl
        | some e => exact hc.2.2.2.2.2.2
    have hvclean : Clean ⟨(lastD rest n0).name, (lastD rest n0).provider,
        sessG ((n0 :: rest).map AccountRecord.session) (sessOf cur),
        (lastD rest n0).api_user⟩ :=
      ⟨hln, hlnt, hlp, hlpf, hla, hlaf, hsesstr⟩
    have hoc : OptClean (some (⟨(lastD rest n0).name, (lastD rest n0).provider,
        sessG ((n0 :: rest).map AccountRecord.session) (sessOf cur),
        (lastD rest n0).api_user⟩ : AccountRecord)) := hvclean
    rw [hcf]
    rw [foldl_appVal_closed rest n0 _ hn0 hrest hoc]
    show _ = some ⟨(lastD rest n0).name, (lastD rest n0).provider,
      sessG ((n0 :: rest).map AccountRecord.session) (sessOf cur), (lastD rest n0).api_user⟩
    have : sessOf (some (⟨(lastD rest n0).name, (lastD rest n0).provider,
        sessG ((n0 :: rest).map AccountRecord.session) (sessOf cur),
        (lastD rest n0).api_user⟩ : AccountRecord)) =
        sessG ((n0 :: rest).map AccountRecord.session) (sessOf cur) := rfl
    rw [this, sessG_idem]

theorem mapGet_eq_lookup {m : List (JStr × AccountRecord)}
    (h : ∀ p ∈ m, p.1 = mergeKey p.2) (k : JStr) :
    mapGet k m = lookupByKey k (mapValues m) := by
  induction m with
  | nil => rfl
  | cons p rest ih =>
    obtain ⟨k2, v2⟩ := p
    have hk2 : k2 = mergeKey v2 := h (k2, v2) (List.mem_cons_self _ _)
    rw [mapGet_cons, mapValues_cons]
    unfold lookupByKey
    rw [List.find?_cons]
    by_cases hk : k2 = k
    · rw [if_pos hk]
      rw [hk2] at hk
      simp only [hk, beq_self_eq_true]
    · rw [if_neg hk]
      rw [hk2] at hk
      have : (mergeKey v2 == k) = false := beq_eq_false_iff_ne.mpr hk
      rw [this]
      exact ih (fun q hq => h q (List.mem_cons_of_mem _ hq))

theorem lookupByKey_eq_some_iff {k : JStr} {l : List AccountRecord} {v : AccountRecord}
    (h : (l.map mergeKey).Nodup) :
    lookupByKey k l = some v ↔ v ∈ l ∧ mergeKey v = k := by
  induction l with
  | nil =>
    constructor
    · intro hc
      exact absurd hc (by unfold lookupByKey; simp)
    · intro hc
      exact absurd hc.1 (List.not_mem_nil v)
  | cons x rest ih =>
    rw [List.map_cons, List.nodup_cons] at h
    unfold lookupByKey
    by_cases hk : mergeKey x = k
    · rw [List.find?_cons_of_pos _ (by simp [hk])]
      constructor
      · intro hv
        injection hv with hv
        subst hv
        exact ⟨List.mem_cons_self _ _, hk⟩
      · rintro ⟨hmem, hvk⟩
        rcases List.mem_cons.mp hmem with hm | hm
        · rw [hm]
        · exfalso
          apply h.1
          have hvx : mergeKey v = mergeKey x := hvk.trans hk.symm
          rw [← hvx]
          exact List.mem_map_of_mem mergeKey hm
    · rw [List.find?_cons_of_neg _ (by simp [hk])]
      rw [show (List.find? (fun v => mergeKey v == k) rest) = lookupByKey k rest from rfl]
      rw [ih h.2]
      constructor
      · rintro ⟨hmem, hvk⟩
        exact ⟨List.mem_cons_of_mem _ hmem, hvk⟩
      · rintro ⟨hmem, hvk⟩
        rcases List.mem_cons.mp hmem with hm | hm
        · subst hm
          exact absurd hvk hk
        · exact ⟨hm, hvk⟩

theorem lookupByKey_eq_none_iff {k : JStr} {l : List AccountRecord} :
    lookupByKey k l = none ↔ ∀ v ∈ l, mergeKey v ≠ k := by
  unfold lookupByKey
  rw [List.find?_eq_none]
  constructor
  · intro h v hv hc
    exact h v hv (by simp [hc])
  · intro h v hv hc
    exact h v hv (eq_of_beq hc)

theorem lookupByKey_perm {k : JStr} {l l2 : List AccountRecord} (hp : l.Perm l2)
    (h : (l.map mergeKey).Nodup) : lookupByKey k l = lookupByKey k l2 := by
  have h2 : (l2.map mergeKey).Nodup := ((hp.map mergeKey).nodup_iff).mp h
  cases hl : lookupByKey k l with
  | none =>
    rw [lookupByKey_eq_none_iff] at hl
    cases hl2 : lookupByKey k l2 with
    | none => rfl
    | some v =>
      rw [lookupByKey_eq_some_iff h2] at hl2
      exact absurd hl2.2 (hl v (hp.mem_iff.mpr hl2.1))
  | some v =>
    rw [lookupByKey_eq_some_iff h] at hl
    rw [show lookupByKey k l2 = some v from
      (lookupByKey_eq_some_iff h2).mpr ⟨hp.mem_iff.mp hl.1, hl.2⟩]

theorem foldl_upsert_fresh (S : List AccountRecord) :
    ∀ (m : List (JStr × AccountRecord)), (∀ v ∈ S, Clean v) →
    (mapKeys m ++ S.map mergeKey).Nodup →
    S.foldl upsert m = m ++ S.map (fun v => (mergeKey v, v)) := by
  induction S with
  | nil =>
    intro m _ _
    simp
  | cons v rest ih =>
    intro m hclean hnodup
    rw [List.foldl_cons]
    have hcv : Clean v := hclean v (List.mem_cons_self _ _)
    have hknotin : mergeKey v ∉ mapKeys m := by
      intro hc
      rw [List.map_cons] at hnodup
      have := (List.nodup_append).mp hnodup
      exact this.2.2 hc (List.mem_cons_self _ _)
    have hg : mapGet (mergeKey v) m = none := (mapGet_none_iff _ _).mpr hknotin
    rw [upsert_some_new (clean_norm_fix hcv) hg]
    rw [mapSet_append_of_not_mem _ hknotin]
    rw [ih (m ++ [(mergeKey v, v)])
      (fun t ht => hclean t (List.mem_cons_of_mem _ ht))
      (by
        rw [show mapKeys (m ++ [(mergeKey v, v)]) = mapKeys m ++ [mergeKey v] from by
          unfold mapKeys; rw [List.map_append]; rfl]
        rw [List.append_assoc, List.singleton_append]
        rw [List.map_cons] at hnodup
        exact hnodup)]
    rw [List.map_cons, List.append_assoc]
    rfl

theorem mapValues_pairs (S : List AccountRecord) :
    mapValues (S.map (fun v => (mergeKey v, v))) = S := by
  induction S with
  | nil => rfl
  | cons v rest ih =>
    rw [List.map_cons, mapValues_cons, ih]

theorem mapKeys_pairs (S : List AccountRecord) :
    mapKeys (S.map (fun v => (mergeKey v, v))) = S.map mergeKey := by
  induction S with
  | nil => rfl
  | cons v rest ih =>
    rw [List.map_cons, mapKeys_cons, ih, List.map_cons]

theorem pairs_coherent (S : List AccountRecord) :
    ∀ p ∈ S.map (fun v => (mergeKey v, v)), p.1 = mergeKey p.2 := by
  intro p hp
  rw [List.mem_map] at hp
  obtain ⟨v, _, hv⟩ := hp
  rw [← hv]

theorem assoc_ext {m m2 : List (JStr × AccountRecord)}
    (hkeys : mapKeys m = mapKeys m2) (hnd : (mapKeys m).Nodup)
    (hget : ∀ k, mapGet k m = mapGet k m2) : m = m2 := by
  induction m generalizing m2 with
  | nil =>
    cases m2 with
    | nil => rfl
    | cons q rest2 =>
      obtain ⟨k2, v2⟩ := q
      rw [mapKeys_nil, mapKeys_cons] at hkeys
      exact absurd hkeys (by simp)
  | cons p rest ih =>
    obtain ⟨k, v⟩ := p
    cases m2 with
    | nil =>
      rw [mapKeys_nil, mapKeys_cons] at hkeys
      exact absurd hkeys (by simp)
    | cons q rest2 =>
      obtain ⟨k2, v2⟩ := q
      rw [mapKeys_cons, mapKeys_cons] at hkeys
      injection hkeys with hk hkrest
      subst hk
      have hv : v = v2 := by
        have := hget k
        rw [mapGet_cons, mapGet_cons, if_pos rfl, if_pos rfl] at this
        injection this
      subst hv
      rw [mapKeys_cons] at hnd
      have hknotin : k ∉ mapKeys rest := (List.nodup_cons.mp hnd).1
      have hrest : rest = rest2 := by
        apply ih hkrest (List.nodup_cons.mp hnd).2
        intro k3
        by_cases hk3 : k3 = k
        · subst hk3
          rw [(mapGet_none_iff _ _).mpr hknotin]
          rw [hkrest] at hknotin
          rw [(mapGet_none_iff _ _).mpr hknotin]
        · have := hget k3
          rw [mapGet_cons, mapGet_cons, if_neg (fun hc => hk3 hc.symm),
            if_neg (fun hc => hk3 hc.symm)] at this
          exact this
      rw [hrest]

theorem strLt_conn : ∀ {a b : JStr}, strLt a b = false → strLt b a = false → a = b := by
  intro a
  induction a with
  | nil =>
    intro b h1 _
    cases b with
    | nil => rfl
    | cons c cs => exact absurd h1 (by unfold strLt; simp)
  | cons c cs ih =>
    intro b h1 h2
    cases b with
    | nil => exact absurd h2 (by unfold strLt; simp)
    | cons d ds =>
      unfold strLt at h1 h2
      by_cases hcd : c < d
      · rw [if_pos hcd] at h1
        exact absurd h1 (by simp)
      · rw [if_neg hcd] at h1
        by_cases hdc : d < c
        · rw [if_pos hdc] at h1
          rw [if_pos hdc] at h2
          exact absurd h2 (by simp)
        · rw [if_neg hdc] at h1
          rw [if_neg hdc, if_neg hcd] at h2
          have hce : c = d := le_antisymm (not_lt.mp hdc) (not_lt.mp hcd)
          rw [hce, ih h1 h2]

theorem accLe_total {a b : AccountRecord} (h : accLe a b = false) : accLe b a = true := by
  unfold accLe at h ⊢
  by_cases hp : a.provider = b.provider
  · rw [if_pos hp] at h
    rw [if_pos hp.symm]
    rw [Bool.or_eq_false_iff] at h
    have hne : a.api_user ≠ b.api_user := by
      intro hc
      rw [hc] at h
      simp at h
    by_cases hba : strLt b.api_user a.api_user
    · rw [hba]
      simp
    · have := strLt_conn h.1 (Bool.not_eq_true _ ▸ (by simpa using hba))
      exact absurd this hne
  · rw [if_neg hp] at h
    rw [if_neg (fun hc => hp hc.symm)]
    by_cases hba : strLt b.provider a.provider
    · exact hba
    · have := strLt_conn h (by simpa using hba)
      exact absurd this hp

theorem insertAcc_perm (x : AccountRecord) (l : List AccountRecord) :
    (insertAcc x l).Perm (x :: l) := by
  induction l with
  | nil => exact List.Perm.refl _
  | cons y ys ih =>
    unfold insertAcc
    by_cases h : accLe x y
    · rw [if_pos h]
    · rw [if_neg h]
      exact List.Perm.trans (List.Perm.cons y ih) (List.Perm.swap x y ys)

theorem sortAccounts_perm (l : List AccountRecord) : (sortAccounts l).Perm l := by
  induction l with
  | nil => exact List.Perm.refl _
  | cons x xs ih =>
    unfold sortAccounts
    exact List.Perm.trans (insertAcc_perm x (sortAccounts xs)) (List.Perm.cons x ih)

theorem insertAcc_nil (x : AccountRecord) : insertAcc x [] = [x] := rfl

theorem insertAcc_cons (x y : AccountRecord) (ys : List AccountRecord) :
    insertAcc x (y :: ys) = if accLe x y then x :: y :: ys else y :: insertAcc x ys := rfl

theorem insertAcc_head (x : AccountRecord) (l : List AccountRecord) :
    insertAcc x l = x :: l ∨
      (∃ y ys, l = y :: ys ∧ accLe x y = false ∧ insertAcc x l = y :: insertAcc x ys) := by
  cases l with
  | nil => exact Or.inl rfl
  | cons y ys =>
    rw [insertAcc_cons]
    by_cases h : accLe x y
    · rw [if_pos h]
      exact Or.inl rfl
    · rw [if_neg h]
      exact Or.inr ⟨y, ys, rfl, by simpa using h, rfl⟩

theorem insertAcc_sorted {l : List AccountRecord} (x : AccountRecord) (h : SortedA l) :
    SortedA (insertAcc x l) := by
  induction l with
  | nil =>
    rw [insertAcc_nil]
    exact List.chain'_singleton x
  | cons y ys ih =>
    rw [insertAcc_cons]
    by_cases hxy : accLe x y
    · rw [if_pos hxy]
      unfold SortedA at h ⊢
      rw [List.chain'_cons']
      constructor
      · intro z hz
        rw [List.head?_cons] at hz
        have hz2 : y = z := by simpa using hz
        rw [← hz2]
        exact hxy
      · exact h
    · rw [if_neg hxy]
      have hyx : accLe y x = true := accLe_total (by simpa using hxy)
      unfold SortedA at h ⊢
      rw [List.chain'_cons'] at h
      have htail : SortedA (insertAcc x ys) := ih h.2
      rw [List.chain'_cons']
      refine ⟨?_, htail⟩
      intro z hz
      rcases insertAcc_head x ys with hcase | ⟨w, ws, hys, _, heq⟩
      · rw [hcase, List.head?_cons] at hz
        have hz2 : x = z := by simpa using hz
        rw [← hz2]
        exact hyx
      · rw [heq, List.head?_cons] at hz
        have hz2 : w = z := by simpa using hz
        rw [← hz2]
        exact h.1 w (by rw [hys, List.head?_cons]; simp)

theorem sortAccounts_sorted (l : List AccountRecord) : SortedA (sortAccounts l) := by
  induction l with
  | nil => exact List.chain'_nil
  | cons x xs ih =>
    unfold sortAccounts
    exact insertAcc_sorted x ih

theorem sortAccounts_eq_of_sorted {l : List AccountRecord} (h : SortedA l) :
    sortAccounts l = l := by
  induction l with
  | nil => rfl
  | cons x xs ih =>
    unfold sortAccounts
    unfold SortedA at h
    rw [List.chain'_cons'] at h
    rw [ih h.2]
    cases xs with
    | nil => rfl
    | cons y ys =>
      rw [insertAcc_cons]
      rw [if_pos (h.1 y (by rw [List.head?_cons]; simp))]

theorem relevant_clean (k : JStr) (l : List AccountRecord) :
    ∀ n ∈ relevant k l, Clean n := by
  intro n hn
  unfold relevant at hn
  have hm := List.mem_of_mem_filter hn
  rw [List.mem_filterMap] at hm
  obtain ⟨x, _, hx⟩ := hm
  exact norm_clean hx

theorem OptClean_mapGet {k : JStr} {m : List (JStr × AccountRecord)} (hm : MapInv m) :
    OptClean (mapGet k m) := by
  cases hg : mapGet k m with
  | none => exact trivial
  | some e => exact (hm.1 _ (mapGet_some_mem hg)).2

theorem mergeAccounts_idem (base inc : List AccountRecord) :
    mergeAccounts (mergeAccounts base inc) inc = mergeAccounts base inc := by
  have hInv : MapInv ((base ++ inc).foldl upsert []) := MapInv_foldl _ MapInv_nil
  have hCoh : ∀ p ∈ (base ++ inc).foldl upsert [], p.1 = mergeKey p.2 :=
    fun p hp => (hInv.1 p hp).1
  have hSperm : (sortAccounts (mapValues ((base ++ inc).foldl upsert []))).Perm
      (mapValues ((base ++ inc).foldl upsert [])) := sortAccounts_perm _
  have hCleanV : ∀ v ∈ mapValues ((base ++ inc).foldl upsert []), Clean v := by
    intro v hv
    unfold mapValues at hv
    rw [List.mem_map] at hv
    obtain ⟨p, hp, hpv⟩ := hv
    rw [← hpv]
    exact (hInv.1 p hp).2
  have hCleanS : ∀ v ∈ sortAccounts (mapValues ((base ++ inc).foldl upsert [])), Clean v :=
    fun v hv => hCleanV v (hSperm.mem_iff.mp hv)
  have hkeysV : (mapValues ((base ++ inc).foldl upsert [])).map mergeKey =
      mapKeys ((base ++ inc).foldl upsert []) := by
    unfold mapValues mapKeys
    rw [List.map_map]
    exact (List.map_congr_left (fun p hp => (hCoh p hp).symm))
  have hndV : ((mapValues ((base ++ inc).foldl upsert [])).map mergeKey).Nodup := by
    rw [hkeysV]
    exact hInv.2
  have hndS : ((sortAccounts (mapValues ((base ++ inc).foldl upsert []))).map mergeKey).Nodup :=
    ((hSperm.map mergeKey).nodup_iff).mpr hndV
  set S := sortAccounts (mapValues ((base ++ inc).foldl upsert [])) with hS
  have hfresh : S.foldl upsert [] = S.map (fun v => (mergeKey v, v)) := by
    have := foldl_upsert_fresh S [] hCleanS (by rw [mapKeys_nil]; simpa using hndS)
    simpa using this
  have hmergeS : mergeAccounts base inc = S := rfl
  show mergeAccounts S inc = S
  have hsplit2 : (S ++ inc).foldl upsert [] = inc.foldl upsert (S.foldl upsert []) := by
    rw [List.foldl_append]
  -- key fact: re-upserting inc into the frozen map is the identity
  have hgetPm1 : ∀ k, mapGet k (S.map (fun v => (mergeKey v, v))) =
      mapGet k ((base ++ inc).foldl upsert []) := by
    intro k
    rw [mapGet_eq_lookup (pairs_coherent S) k, mapValues_pairs]
    rw [lookupByKey_perm hSperm hndS]
    rw [← mapGet_eq_lookup hCoh k]
  have hfix : inc.foldl upsert (S.map (fun v => (mergeKey v, v))) =
      S.map (fun v => (mergeKey v, v)) := by
    have hkeq : mapKeys (inc.foldl upsert (S.map (fun v => (mergeKey v, v)))) =
        mapKeys (S.map (fun v => (mergeKey v, v))) := by
      apply mapKeys_foldl_of_mem
      intro x hx n hn
      rw [mapKeys_pairs]
      have hk1 : mergeKey n ∈ mapKeys ((base ++ inc).foldl upsert []) :=
        mem_keys_foldl [] (List.mem_append_right base hx) hn
      rw [← hkeysV] at hk1
      exact ((hSperm.map mergeKey).mem_iff).mpr hk1
    apply assoc_ext hkeq (by rw [hkeq, mapKeys_pairs]; exact hndS)
    intro k
    have hc0 : OptClean (mapGet k (base.foldl upsert [])) :=
      OptClean_mapGet (MapInv_foldl _ MapInv_nil)
    have hm1get : mapGet k ((base ++ inc).foldl upsert []) =
        (relevant k inc).foldl appVal (mapGet k (base.foldl upsert [])) := by
      rw [List.foldl_append, mapGet_foldl, foldl_upsertVal_relevant]
    rw [mapGet_foldl, hgetPm1, hm1get, foldl_upsertVal_relevant]
    rw [foldl_appVal_absorb _ _ (relevant_clean k inc) hc0]
  show sortAccounts (mapValues ((S ++ inc).foldl upsert [])) = S
  rw [hsplit2, hfresh, hfix, mapValues_pairs]
  rw [hS]
  exact sortAccounts_eq_of_sorted (sortAccounts_sorted _)

theorem mergeAccounts_pair_collision {b i nb ni : AccountRecord}
    (hb : normalizeAccountRecord b = some nb) (hi : normalizeAccountRecord i = some ni)
    (hk : mergeKey nb = mergeKey ni) :
    mergeAccounts [b] [i] =
      [⟨ni.name, ni.provider, jsOr ni.session nb.session, ni.api_user⟩] := by
  have hstep1 : upsert [] b = [(mergeKey nb, nb)] := by
    rw [upsert_some_new hb (mapGet_nil _), mapSet_nil]
  have hget : mapGet (mergeKey ni) [(mergeKey nb, nb)] = some nb := by
    rw [mapGet_cons, if_pos hk]
  have hstep2 : upsert [(mergeKey nb, nb)] i =
      [(mergeKey ni, mergeAccountPair nb ni)] := by
    rw [upsert_some_existing hi hget, mapSet_cons, if_pos hk]
  show sortAccounts (mapValues (([b] ++ [i]).foldl upsert [])) = _
  rw [show ([b] ++ [i] : List AccountRecord) = [b, i] from rfl]
  rw [show ([b, i].foldl upsert []) = upsert (upsert [] b) i from rfl]
  rw [hstep1, hstep2]
  rw [show mapValues [(mergeKey ni, mergeAccountPair nb ni)] = [mergeAccountPair nb ni] from rfl]
  rw [show sortAccounts [mergeAccountPair nb ni] = [mergeAccountPair nb ni] from rfl]
  rw [mergePair_clean_eq (norm_clean hb) (norm_clean hi)]


theorem isSameOrParentDomain_iff (h c : JStr)
    (hh : normalizeHostname h ≠ []) (hc : normalizeHostname c ≠ []) :
    (isSameOrParentDomain h c = true ↔
      (normalizeHostname h = normalizeHostname c ∨
        jsEndsWith (normalizeHostname h) ('.' :: normalizeHostname c) = true)) := by
  unfold isSameOrParentDomain
  rw [if_neg (by simp [hh, hc])]
  simp

theorem dedupe_mem_aux {α : Type} (k : α → JStr) (items : List α) :
    ∀ (m : List (JStr × α)), (∀ p ∈ m, k p.2 ≠ []) →
    ∀ x ∈ mapValues (items.foldl (dedupeStep k) m), k x ≠ [] := by
  induction items with
  | nil =>
    intro m hm x hx
    unfold mapValues at hx
    rw [List.mem_map] at hx
    obtain ⟨p, hp, hpx⟩ := hx
    rw [← hpx]
    exact hm p hp
  | cons i rest ih =>
    intro m hm x hx
    rw [List.foldl_cons] at hx
    refine ih (dedupeStep k m i) ?_ x hx
    intro p hp
    unfold dedupeStep at hp
    by_cases hki : k i = []
    · rw [if_pos hki] at hp
      exact hm p hp
    · rw [if_neg hki] at hp
      rcases mem_mapSet hp with h | h
      · rw [h]
        exact hki
      · exact hm p h

theorem dedupeByKey_last_wins {α : Type} (a b : α) (k : α → JStr) (hk : k a = k b)
    (hne : k a ≠ []) : dedupeByKey [a, b] k = [b] := by
  unfold dedupeByKey
  rw [List.foldl_cons, List.foldl_cons, List.foldl_nil]
  unfold dedupeStep
  simp only []
  rw [if_neg hne, mapSet_nil, if_neg (hk ▸ hne), ← hk, mapSet_cons, if_pos rfl]
  rfl

theorem find_first {α : Type} (p : α → Bool) (l1 l2 : List α) (s : α)
    (h1 : ∀ t ∈ l1, p t = false) (hs : p s = true) :
    (l1 ++ s :: l2).find? p = some s := by
  induction l1 with
  | nil =>
    rw [List.nil_append]
    exact List.find?_cons_of_pos _ hs
  | cons x xs ih =>
    rw [List.cons_append]
    rw [List.find?_cons_of_neg _ (by
      rw [h1 x (List.mem_cons_self _ _)]
      simp)]
    exact ih (fun t ht => h1 t (List.mem_cons_of_mem _ ht))

theorem findFailed_exact_first (parseDomain : JStr → JStr) (hostname : JStr)
    (l1 l2 : List FailedSite) (s : FailedSite)
    (htarget : normalizeHostname hostname ≠ [])
    (h1 : ∀ t ∈ l1, normalizeHostname (siteDomain parseDomain t) ≠ normalizeHostname hostname)
    (hs : normalizeHostname (siteDomain parseDomain s) = normalizeHostname hostname) :
    findFailedSiteByHostname parseDomain (l1 ++ s :: l2) hostname = some s := by
  unfold findFailedSiteByHostname
  rw [if_neg htarget]
  rw [find_first _ l1 l2 s
    (fun t ht => beq_eq_false_iff_ne.mpr (h1 t ht))
    (by simp [hs])]

theorem findFailed_fallback (parseDomain : JStr → JStr) (hostname : JStr)
    (l1 l2 : List FailedSite) (s : FailedSite)
    (htarget : normalizeHostname hostname ≠ [])
    (hnoexact : ∀ t ∈ l1 ++ s :: l2,
      normalizeHostname (siteDomain parseDomain t) ≠ normalizeHostname hostname)
    (h1 : ∀ t ∈ l1,
      (isSameOrParentDomain (normalizeHostname hostname) (siteDomain parseDomain t) ||
        isSameOrParentDomain (siteDomain parseDomain t) (normalizeHostname hostname)) = false)
    (hs : (isSameOrParentDomain (normalizeHostname hostname) (siteDomain parseDomain s) ||
        isSameOrParentDomain (siteDomain parseDomain s) (normalizeHostname hostname)) = true) :
    findFailedSiteByHostname parseDomain (l1 ++ s :: l2) hostname = some s := by
  unfold findFailedSiteByHostname
  rw [if_neg htarget]
  rw [List.find?_eq_none.mpr (fun t ht => by
    rw [beq_eq_false_iff_ne.mpr (hnoexact t ht)]
    simp)]
  rw [find_first _ l1 l2 s h1 hs]

theorem normalizeFailedReport_spec {σ : Type} (now defaultSource : JStr)
    (report : RawFailedReport σ) :
    ((normalizeFailedReport now report defaultSource).failed_count =
      (normalizeFailedReport now report defaultSource).failed_sites.length) ∧
    (∀ c : Nat, normalizeFailedReport now { report with failed_count := c } defaultSource =
      normalizeFailedReport now report defaultSource) ∧
    (report.generated_at ≠ [] →
      (normalizeFailedReport now report defaultSource).generated_at = report.generated_at) ∧
    (report.source ≠ [] →
      (normalizeFailedReport now report defaultSource).source = report.source) ∧
    (∀ l, report.failed_sites = some l →
      (normalizeFailedReport now report defaultSource).failed_sites = l ∧
      (normalizeFailedReport now report defaultSource).failed_count = l.length) := by
  refine ⟨rfl, fun c => rfl, ?_, ?_, ?_⟩
  · intro h
    unfold normalizeFailedReport
    exact jsOr_ne _ h
  · intro h
    unfold normalizeFailedReport
    exact jsOr_ne _ h
  · intro l hl
    unfold normalizeFailedReport
    rw [hl]
    exact ⟨rfl, rfl⟩

theorem parseAccounts_spec :
    (∀ lbl, parseAccountsJsonArray none lbl =
      Except.error (lbl ++ " 不是 JSON 数组".toList)) ∧
    (∀ j lbl, (∀ xs, j ≠ Json.arr xs) → parseAccountsJsonArray (some j) lbl =
      Except.error (lbl ++ " 不是 JSON 数组".toList)) ∧
    (∀ lbl, parseAccountsJsonArray (some (Json.arr [])) lbl = Except.ok []) ∧
    (∀ j xs lbl, normalizeAccountRecordJson j = none →
      parseAccountsJsonArray (some (Json.arr (j :: xs))) lbl =
        parseAccountsJsonArray (some (Json.arr xs)) lbl) := by
  refine ⟨fun lbl => rfl, ?_, fun lbl => rfl, ?_⟩
  · intro j lbl h
    cases j with
    | null => rfl
    | bool b => rfl
    | num n => rfl
    | str s => rfl
    | obj fields => rfl
    | arr xs => exact absurd rfl (h xs)
  · intro j xs lbl h
    show Except.ok (List.filterMap normalizeAccountRecordJson (j :: xs)) = _
    rw [List.filterMap_cons, h]
    rfl

theorem extractBatch_nil (pd cs ta : JStr → JStr) : extractBatch pd cs ta [] = ([], []) := rfl

theorem extractBatch_cons (pd cs ta : JStr → JStr) (site : FailedSite)
    (rest : List FailedSite) :
    extractBatch pd cs ta (site :: rest) =
      (let r := extractBatch pd cs ta rest
       let domain := batchDomain pd site
       if domain = [] ∨ site.provider = [] then (r.1, missMsgDomain site :: r.2)
       else
         let session := getSessionByDomain cs domain
         if session = [] then (r.1, missMsgSession site :: r.2)
         else
           let apiUser := jsOr (getApiUserFromOpenTab ta domain) site.api_user
           if apiUser = [] then (r.1, missMsgApiUser site :: r.2)
           else (extractedRecord site session apiUser :: r.1, r.2)) := rfl

theorem extractBatch_single (pd cs ta : JStr → JStr) (site : FailedSite) :
    (batchDomain pd site = [] ∨ site.provider = [] →
      extractBatch pd cs ta [site] = ([], [missMsgDomain site])) ∧
    (¬(batchDomain pd site = [] ∨ site.provider = []) →
      getSessionByDomain cs (batchDomain pd site) = [] →
      extractBatch pd cs ta [site] = ([], [missMsgSession site])) ∧
    (¬(batchDomain pd site = [] ∨ site.provider = []) →
      getSessionByDomain cs (batchDomain pd site) ≠ [] →
      jsOr (getApiUserFromOpenTab ta (batchDomain pd site)) site.api_user = [] →
      extractBatch pd cs ta [site] = ([], [missMsgApiUser site])) ∧
    (¬(batchDomain pd site = [] ∨ site.provider = []) →
      getSessionByDomain cs (batchDomain pd site) ≠ [] →
      jsOr (getApiUserFromOpenTab ta (batchDomain pd site)) site.api_user ≠ [] →
      extractBatch pd cs ta [site] =
        ([extractedRecord site (getSessionByDomain cs (batchDomain pd site))
          (jsOr (getApiUserFromOpenTab ta (batchDomain pd site)) site.api_user)], [])) := by
  refine ⟨?_, ?_, ?_, ?_⟩
  · intro h
    rw [extractBatch_cons]
    simp only [extractBatch_nil]
    rw [if_pos h]
  · intro h hs
    rw [extractBatch_cons]
    simp only [extractBatch_nil]
    rw [if_neg h, if_pos hs]
  · intro h hs ha
    rw [extractBatch_cons]
    simp only [extractBatch_nil]
    rw [if_neg h, if_neg hs, if_pos ha]
  · intro h hs ha
    rw [extractBatch_cons]
    simp only [extractBatch_nil]
    rw [if_neg h, if_neg hs, if_neg ha]

theorem extractBatch_append_single (pd cs ta : JStr → JStr) (site : FailedSite)
    (rest : List FailedSite) :
    extractBatch pd cs ta (site :: rest) =
      ((extractBatch pd cs ta [site]).1 ++ (extractBatch pd cs ta rest).1,
       (extractBatch pd cs ta [site]).2 ++ (extractBatch pd cs ta rest).2) := by
  rw [extractBatch_cons pd cs ta site rest, extractBatch_cons pd cs ta site []]
  simp only [extractBatch_nil]
  by_cases h1 : batchDomain pd site = [] ∨ site.provider = []
  · rw [if_pos h1, if_pos h1]
    rfl
  · rw [if_neg h1, if_neg h1]
    by_cases h2 : getSessionByDomain cs (batchDomain pd site) = []
    · rw [if_pos h2, if_pos h2]
      rfl
    · rw [if_neg h2, if_neg h2]
      by_cases h3 : jsOr (getApiUserFromOpenTab ta (batchDomain pd site)) site.api_user = []
      · rw [if_pos h3, if_pos h3]
        rfl
      · rw [if_neg h3, if_neg h3]
        rfl

theorem extractBatch_length (pd cs ta : JStr → JStr) (sites : List FailedSite) :
    (extractBatch pd cs ta sites).1.length + (extractBatch pd cs ta sites).2.length =
      sites.length := by
  induction sites with
  | nil => rfl
  | cons site rest ih =>
    rw [extractBatch_append_single]
    simp only [List.length_append, List.length_cons]
    rw [extractBatch_cons pd cs ta site []]
    simp only [extractBatch_nil]
    by_cases h1 : batchDomain pd site = [] ∨ site.provider = []
    · rw [if_pos h1]
      simp only [List.length_nil, List.length_cons]
      omega
    · rw [if_neg h1]
      by_cases h2 : getSessionByDomain cs (batchDomain pd site) = []
      · rw [if_pos h2]
        simp only [List.length_nil, List.length_cons]
        omega
      · rw [if_neg h2]
        by_cases h3 : jsOr (getApiUserFromOpenTab ta (batchDomain pd site)) site.api_user = []
        · rw [if_pos h3]
          simp only [List.length_nil, List.length_cons]
          omega
        · rw [if_neg h3]
          simp only [List.length_nil, List.length_cons]
          omega

theorem extractCurrent_spec (matchedSite : Option FailedSite)
    (provider apiUser session : JStr) (base : List AccountRecord) :
    (provider = [] →
      (buildCurrentAccountRecord matchedSite provider apiUser session).provider =
        "__FILL_PROVIDER__".toList ∧
      "provider".toList ∈ (extractCurrentResult matchedSite provider apiUser session base).2) ∧
    (apiUser = [] →
      (buildCurrentAccountRecord matchedSite provider apiUser session).api_user =
        "__FILL_API_USER__".toList ∧
      "api_user".toList ∈ (extractCurrentResult matchedSite provider apiUser session base).2) ∧
    (provider = [] ∨ apiUser = [] →
      (extractCurrentResult matchedSite provider apiUser session base).1 =
        [buildCurrentAccountRecord matchedSite provider apiUser session]) ∧
    (provider ≠ [] → apiUser ≠ [] →
      (extractCurrentResult matchedSite provider apiUser session base).2 = [] ∧
      (extractCurrentResult matchedSite provider apiUser session base).1 =
        mergeAccounts base [buildCurrentAccountRecord matchedSite provider apiUser session]) ∧
    (provider ≠ [] →
      (buildCurrentAccountRecord matchedSite provider apiUser session).provider = provider) ∧
    (apiUser ≠ [] →
      (buildCurrentAccountRecord matchedSite provider apiUser session).api_user = apiUser) := by
  refine ⟨?_, ?_, ?_, ?_, ?_, ?_⟩
  · intro hp
    constructor
    · show jsOr provider "__FILL_PROVIDER__".toList = _
      rw [hp, jsOr_nil]
    · show "provider".toList ∈
        (if provider = [] then ["provider".toList] else []) ++
          (if apiUser = [] then ["api_user".toList] else [])
      rw [if_pos hp]
      exact List.mem_append_left _ (List.mem_singleton.mpr rfl)
  · intro ha
    constructor
    · show jsOr apiUser "__FILL_API_USER__".toList = _
      rw [ha, jsOr_nil]
    · show "api_user".toList ∈
        (if provider = [] then ["provider".toList] else []) ++
          (if apiUser = [] then ["api_user".toList] else [])
      rw [if_pos ha]
      exact List.mem_append_right _ (List.mem_singleton.mpr rfl)
  · intro h
    show (if ((if provider = [] then ["provider".toList] else []) ++
        (if apiUser = [] then ["api_user".toList] else []) ≠ []) then _ else _) = _
    rw [if_pos (by
      rcases h with h | h
      · rw [if_pos h]
        simp
      · rw [if_pos h]
        simp)]
  · intro hp ha
    have hmf : (if provider = [] then ["provider".toList] else []) ++
        (if apiUser = [] then ["api_user".toList] else []) = [] := by
      rw [if_neg hp, if_neg ha]
      rfl
    constructor
    · exact hmf
    · show (if ((if provider = [] then ["provider".toList] else []) ++
          (if apiUser = [] then ["api_user".toList] else []) ≠ []) then _ else _) = _
      rw [if_neg (by rw [hmf]; simp)]
  · intro hp
    show jsOr provider "__FILL_PROVIDER__".toList = provider
    rw [jsOr_ne _ hp]
  · intro ha
    show jsOr apiUser "__FILL_API_USER__".toList = apiUser
    rw [jsOr_ne _ ha]

theorem findFailed_claim :
    (∀ (parseDomain : JStr → JStr) (hostname : JStr) (l1 l2 : List FailedSite)
      (s : FailedSite), normalizeHostname hostname ≠ [] →
      (∀ t ∈ l1, normalizeHostname (siteDomain parseDomain t) ≠ normalizeHostname hostname) →
      normalizeHostname (siteDomain parseDomain s) = normalizeHostname hostname →
      findFailedSiteByHostname parseDomain (l1 ++ s :: l2) hostname = some s) ∧
    (∀ (parseDomain : JStr → JStr) (hostname : JStr) (l1 l2 : List FailedSite)
      (s : FailedSite), normalizeHostname hostname ≠ [] →
      (∀ t ∈ l1 ++ s :: l2,
        normalizeHostname (siteDomain parseDomain t) ≠ normalizeHostname hostname) →
      (∀ t ∈ l1,
        (isSameOrParentDomain (normalizeHostname hostname) (siteDomain parseDomain t) ||
          isSameOrParentDomain (siteDomain parseDomain t) (normalizeHostname hostname)) =
          false) →
      (isSameOrParentDomain (normalizeHostname hostname) (siteDomain parseDomain s) ||
        isSameOrParentDomain (siteDomain parseDomain s) (normalizeHostname hostname)) = true →
      findFailedSiteByHostname parseDomain (l1 ++ s :: l2) hostname = some s) ∧
    (∀ s : FailedSite,
      (s.login_url ≠ [] → pickOpenUrl s = s.login_url) ∧
      (s.login_url = [] → s.oauth_login_url ≠ [] → pickOpenUrl s = s.oauth_login_url) ∧
      (s.login_url = [] → s.oauth_login_url = [] → pickOpenUrl s = s.site_url)) := by
  refine ⟨findFailed_exact_first, findFailed_fallback, ?_⟩
  intro s
  refine ⟨?_, ?_, ?_⟩
  · intro h
    unfold pickOpenUrl
    rw [jsOr_ne _ h]
  · intro h1 h2
    unfold pickOpenUrl
    rw [h1, jsOr_nil, jsOr_ne _ h2]
  · intro h1 h2
    unfold pickOpenUrl
    rw [h1, jsOr_nil, h2, jsOr_nil]


theorem findFailed_counterexample :
    normalizeHostname (siteDomain (fun _ => []) exSiteB) = normalizeHostname [] ∧
    findFailedSiteByHostname (fun _ => []) [exSiteB] [] = none := by
  constructor
  · decide
  · decide

theorem extract_claim (pd cs ta : JStr → JStr) :
    (∀ sites : List FailedSite,
      (extractBatch pd cs ta sites).1.length + (extractBatch pd cs ta sites).2.length =
        sites.length) ∧
    (∀ (site : FailedSite) (rest : List FailedSite),
      extractBatch pd cs ta (site :: rest) =
        ((extractBatch pd cs ta [site]).1 ++ (extractBatch pd cs ta rest).1,
         (extractBatch pd cs ta [site]).2 ++ (extractBatch pd cs ta rest).2)) ∧
    (∀ site : FailedSite,
      (batchDomain pd site = [] ∨ site.provider = [] →
        extractBatch pd cs ta [site] = ([], [missMsgDomain site])) ∧
      (¬(batchDomain pd site = [] ∨ site.provider = []) →
        getSessionByDomain cs (batchDomain pd site) = [] →
        extractBatch pd cs ta [site] = ([], [missMsgSession site])) ∧
      (¬(batchDomain pd site = [] ∨ site.provider = []) →
        getSessionByDomain cs (batchDomain pd site) ≠ [] →
        jsOr (getApiUserFromOpenTab ta (batchDomain pd site)) site.api_user = [] →
        extractBatch pd cs ta [site] = ([], [missMsgApiUser site])) ∧
      (¬(batchDomain pd site = [] ∨ site.provider = []) →
        getSessionByDomain cs (batchDomain pd site) ≠ [] →
        jsOr (getApiUserFromOpenTab ta (batchDomain pd site)) site.api_user ≠ [] →
        extractBatch pd cs ta [site] =
          ([extractedRecord site (getSessionByDomain cs (batchDomain pd site))
            (jsOr (getApiUserFromOpenTab ta (batchDomain pd site)) site.api_user)], []))) ∧
    (∀ (base : List AccountRecord) (sites : List FailedSite),
      extractFailedResult pd cs ta base sites =
        mergeAccounts base (extractBatch pd cs ta sites).1) :=
  ⟨extractBatch_length pd cs ta, extractBatch_append_single pd cs ta,
   extractBatch_single pd cs ta, fun _ _ => rfl⟩


/-- Claim C1: when a base record and an incoming record collide on the
(provider, api_user) key, mergeAccounts keeps the incoming session when it is
non-empty and otherwise keeps the base session, and every other field takes
the incoming (normalized) value.  Stated via the normalized forms nb and ni
of the two colliding records. -/
theorem claim_merge_collision {b i nb ni : AccountRecord}
    (hb : normalizeAccountRecord b = some nb) (hi : normalizeAccountRecord i = some ni)
    (hk : mergeKey nb = mergeKey ni) :
    mergeAccounts [b] [i] =
      [⟨ni.name, ni.provider, jsOr ni.session nb.session, ni.api_user⟩] :=
  mergeAccounts_pair_collision hb hi hk

/-- Witness for claim C1 at the spec example: an incoming blank session does
not overwrite the base session S. -/
theorem claim_merge_collision_witness :
    mergeAccounts [mkAcc "x_1" "x" "S" "1"] [mkAcc "x_1" "x" "" "1"] =
      [⟨(mkAcc "x_1" "x" "" "1").name, (mkAcc "x_1" "x" "" "1").provider,
        jsOr (mkAcc "x_1" "x" "" "1").session (mkAcc "x_1" "x" "S" "1").session,
        (mkAcc "x_1" "x" "" "1").api_user⟩] :=
  claim_merge_collision (by decide) (by decide) (by decide)

/-- Claim C2: mergeAccounts is idempotent in its incoming argument: merging
the same incoming list into the result of a previous merge of that list
changes nothing. -/
theorem claim_merge_idempotent (base inc : List AccountRecord) :
    mergeAccounts (mergeAccounts base inc) inc = mergeAccounts base inc :=
  mergeAccounts_idem base inc

/-- Counterexample for claim C3 as stated: with a key function returning the
empty (falsy) string for both items, dedupeByKey returns the empty list, not
the singleton of the second item. -/
theorem claim_dedupe_counterexample :
    (fun _ : Nat => ([] : JStr)) 0 = (fun _ : Nat => ([] : JStr)) 1 ∧
    dedupeByKey [0, 1] (fun _ : Nat => ([] : JStr)) ≠ [1] := by
  constructor
  · rfl
  · decide

/-- Claim C3 (amended): for two items colliding on a non-empty (truthy) key,
dedupeByKey returns exactly the one-element list holding the second item. -/
theorem claim_dedupe_last_wins {α : Type} (a b : α) (k : α → JStr)
    (hk : k a = k b) (hne : k a ≠ []) : dedupeByKey [a, b] k = [b] :=
  dedupeByKey_last_wins a b k hk hne

/-- Witness for claim C3 at a concrete collision with a non-empty key. -/
theorem claim_dedupe_last_wins_witness :
    dedupeByKey [(0 : Nat), 1] (fun _ => ['x']) = [1] :=
  claim_dedupe_last_wins 0 1 (fun _ => ['x']) rfl (by decide)

/-- Counterexample for claim C4 as stated: for an empty target hostname the
function returns none without scanning, although a record whose derived
hostname normalizes to the empty string would be an exact match of the
normalized target under the claimed first pass. -/
theorem claim_findFailed_counterexample :
    normalizeHostname (siteDomain (fun _ => []) exSiteB) = normalizeHostname [] ∧
    findFailedSiteByHostname (fun _ => []) [exSiteB] [] = none :=
  findFailed_counterexample

/-- Claim C4 (amended, for targets with a non-empty normalized hostname):
the first record in list order whose derived hostname exactly matches the
normalized target wins; only when no exact match exists does the fallback
same-or-parent pass, tested in both directions, pick the first match in list
order; the hostname of a record is derived from its first non-empty URL among
login_url, oauth_login_url and site_url. -/
theorem claim_findFailed_two_pass :
    (∀ (parseDomain : JStr → JStr) (hostname : JStr) (l1 l2 : List FailedSite)
      (s : FailedSite), normalizeHostname hostname ≠ [] →
      (∀ t ∈ l1, normalizeHostname (siteDomain parseDomain t) ≠ normalizeHostname hostname) →
      normalizeHostname (siteDomain parseDomain s) = normalizeHostname hostname →
      findFailedSiteByHostname parseDomain (l1 ++ s :: l2) hostname = some s) ∧
    (∀ (parseDomain : JStr → JStr) (hostname : JStr) (l1 l2 : List FailedSite)
      (s : FailedSite), normalizeHostname hostname ≠ [] →
      (∀ t ∈ l1 ++ s :: l2,
        normalizeHostname (siteDomain parseDomain t) ≠ normalizeHostname hostname) →
      (∀ t ∈ l1,
        (isSameOrParentDomain (normalizeHostname hostname) (siteDomain parseDomain t) ||
          isSameOrParentDomain (siteDomain parseDomain t) (normalizeHostname hostname)) =
          false) →
      (isSameOrParentDomain (normalizeHostname hostname) (siteDomain parseDomain s) ||
        isSameOrParentDomain (siteDomain parseDomain s) (normalizeHostname hostname)) = true →
      findFailedSiteByHostname parseDomain (l1 ++ s :: l2) hostname = some s) ∧
    (∀ s : FailedSite,
      (s.login_url ≠ [] → pickOpenUrl s = s.login_url) ∧
      (s.login_url = [] → s.oauth_login_url ≠ [] → pickOpenUrl s = s.oauth_login_url) ∧
      (s.login_url = [] → s.oauth_login_url = [] → pickOpenUrl s = s.site_url)) :=
  findFailed_claim

/-- Witness for claim C4: an exact match in a singleton list is returned. -/
theorem claim_findFailed_two_pass_witness :
    findFailedSiteByHostname (fun u => u) ([] ++ exSiteA :: []) "a.com".toList =
      some exSiteA :=
  claim_findFailed_two_pass.1 (fun u => u) "a.com".toList [] [] exSiteA (by decide)
    (fun t ht => absurd ht (List.not_mem_nil t)) (by decide)

/-- Counterexample for claim C5 as stated: at the pair of empty strings the
claimed equivalence fails, because the source returns false for an empty
host or candidate even though the two normalized strings are equal. -/
theorem claim_sameOrParent_counterexample :
    ¬ (isSameOrParentDomain [] [] = true ↔
      (normalizeHostname [] = normalizeHostname [] ∨
        jsEndsWith (normalizeHostname []) ('.' :: normalizeHostname []) = true)) := by
  decide

/-- Claim C5 (amended, for inputs whose normalized hostnames are non-empty):
isSameOrParentDomain is true exactly when the normalized host equals the
normalized candidate or ends with a dot followed by the candidate, and the
relation is not symmetric, as the three concrete examples show. -/
theorem claim_sameOrParent :
    (∀ h c : JStr, normalizeHostname h ≠ [] → normalizeHostname c ≠ [] →
      (isSameOrParentDomain h c = true ↔
        (normalizeHostname h = normalizeHostname c ∨
          jsEndsWith (normalizeHostname h) ('.' :: normalizeHostname c) = true))) ∧
    isSameOrParentDomain "www.example.com".toList "example.com".toList = true ∧
    isSameOrParentDomain "example.com".toList "www.example.com".toList = false ∧
    isSameOrParentDomain "evilexample.com".toList "example.com".toList = false :=
  ⟨isSameOrParentDomain_iff, by decide, by decide, by decide⟩

/-- Witness for claim C5 instantiating the equivalence at concrete hosts. -/
theorem claim_sameOrParent_witness :
    isSameOrParentDomain "www.example.com".toList "example.com".toList = true ↔
      (normalizeHostname "www.example.com".toList = normalizeHostname "example.com".toList ∨
        jsEndsWith (normalizeHostname "www.example.com".toList)
          ('.' :: normalizeHostname "example.com".toList) = true) :=
  claim_sameOrParent.1 "www.example.com".toList "example.com".toList (by decide) (by decide)

/-- Claim C6: batch extraction records exactly one outcome per record and
never aborts: the outcome lists of a batch are the concatenation of the
per-record outcomes, their total length equals the number of records, each
failure case produces the corresponding failure message (missing domain or
provider, session cookie not found, missing api_user after falling back to
the record api_user), a fully resolved record produces a success record, and
the successes are merged into the base accounts via mergeAccounts. -/
theorem claim_extract_batch (pd cs ta : JStr → JStr) :
    (∀ sites : List FailedSite,
      (extractBatch pd cs ta sites).1.length + (extractBatch pd cs ta sites).2.length =
        sites.length) ∧
    (∀ (site : FailedSite) (rest : List FailedSite),
      extractBatch pd cs ta (site :: rest) =
        ((extractBatch pd cs ta [site]).1 ++ (extractBatch pd cs ta rest).1,
         (extractBatch pd cs ta [site]).2 ++ (extractBatch pd cs ta rest).2)) ∧
    (∀ site : FailedSite,
      (batchDomain pd site = [] ∨ site.provider = [] →
        extractBatch pd cs ta [site] = ([], [missMsgDomain site])) ∧
      (¬(batchDomain pd site = [] ∨ site.provider = []) →
        getSessionByDomain cs (batchDomain pd site) = [] →
        extractBatch pd cs ta [site] = ([], [missMsgSession site])) ∧
      (¬(batchDomain pd site = [] ∨ site.provider = []) →
        getSessionByDomain cs (batchDomain pd site) ≠ [] →
        jsOr (getApiUserFromOpenTab ta (batchDomain pd site)) site.api_user = [] →
        extractBatch pd cs ta [site] = ([], [missMsgApiUser site])) ∧
      (¬(batchDomain pd site = [] ∨ site.provider = []) →
        getSessionByDomain cs (batchDomain pd site) ≠ [] →
        jsOr (getApiUserFromOpenTab ta (batchDomain pd site)) site.api_user ≠ [] →
        extractBatch pd cs ta [site] =
          ([extractedRecord site (getSessionByDomain cs (batchDomain pd site))
            (jsOr (getApiUserFromOpenTab ta (batchDomain pd site)) site.api_user)], []))) ∧
    (∀ (base : List AccountRecord) (sites : List FailedSite),
      extractFailedResult pd cs ta base sites =
        mergeAccounts base (extractBatch pd cs ta sites).1) :=
  extract_claim pd cs ta

/-- Witness for claim C6: a record without provider yields exactly the
missing-domain-or-provider failure and no success. -/
theorem claim_extract_batch_witness :
    extractBatch (fun u => u) (fun _ => []) (fun _ => []) [exSiteC] =
      ([], [missMsgDomain exSiteC]) :=
  ((claim_extract_batch (fun u => u) (fun _ => []) (fun _ => [])).2.2.1 exSiteC).1
    (Or.inr rfl)

/-- Claim C7: in single-current-item extraction an unresolved provider or
api_user is replaced by its fixed sentinel placeholder, the missing fields
are reported to the caller, a record with any placeholder is surfaced as a
standalone one-element result without being merged, and only a record with
no placeholder fields is merged into the base accounts via mergeAccounts. -/
theorem claim_extract_current (matchedSite : Option FailedSite)
    (provider apiUser session : JStr) (base : List AccountRecord) :
    (provider = [] →
      (buildCurrentAccountRecord matchedSite provider apiUser session).provider =
        "__FILL_PROVIDER__".toList ∧
      "provider".toList ∈ (extractCurrentResult matchedSite provider apiUser session base).2) ∧
    (apiUser = [] →
      (buildCurrentAccountRecord matchedSite provider apiUser session).api_user =
        "__FILL_API_USER__".toList ∧
      "api_user".toList ∈ (extractCurrentResult matchedSite provider apiUser session base).2) ∧
    (provider = [] ∨ apiUser = [] →
      (extractCurrentResult matchedSite provider apiUser session base).1 =
        [buildCurrentAccountRecord matchedSite provider apiUser session]) ∧
    (provider ≠ [] → apiUser ≠ [] →
      (extractCurrentResult matchedSite provider apiUser session base).2 = [] ∧
      (extractCurrentResult matchedSite provider apiUser session base).1 =
        mergeAccounts base [buildCurrentAccountRecord matchedSite provider apiUser session]) ∧
    (provider ≠ [] →
      (buildCurrentAccountRecord matchedSite provider apiUser session).provider = provider) ∧
    (apiUser ≠ [] →
      (buildCurrentAccountRecord matchedSite provider apiUser session).api_user = apiUser) :=
  extractCurrent_spec matchedSite provider apiUser session base

/-- Witness for claim C7: with an unresolved provider the placeholder is
used and the caller is told the provider field is a placeholder. -/
theorem claim_extract_current_witness :
    (buildCurrentAccountRecord none [] "1".toList "s".toList).provider =
      "__FILL_PROVIDER__".toList ∧
    "provider".toList ∈ (extractCurrentResult none [] "1".toList "s".toList []).2 :=
  (claim_extract_current none [] "1".toList "s".toList []).1 rfl

/-- Claim C8: a top-level account list whose JSON value is missing or not an
array is a hard parse error carrying a message; a well-formed empty array
parses to the empty list; a malformed entry inside a valid array is silently
dropped without failing the parse. -/
theorem claim_parse_accounts :
    (∀ lbl, parseAccountsJsonArray none lbl =
      Except.error (lbl ++ " 不是 JSON 数组".toList)) ∧
    (∀ j lbl, (∀ xs, j ≠ Json.arr xs) → parseAccountsJsonArray (some j) lbl =
      Except.error (lbl ++ " 不是 JSON 数组".toList)) ∧
    (∀ lbl, parseAccountsJsonArray (some (Json.arr [])) lbl = Except.ok []) ∧
    (∀ j xs lbl, normalizeAccountRecordJson j = none →
      parseAccountsJsonArray (some (Json.arr (j :: xs))) lbl =
        parseAccountsJsonArray (some (Json.arr xs)) lbl) :=
  parseAccounts_spec

/-- Witness for claim C8: a non-array top level value is a hard error. -/
theorem claim_parse_accounts_witness :
    parseAccountsJsonArray (some Json.null) "L".toList =
      Except.error ("L".toList ++ " 不是 JSON 数组".toList) :=
  claim_parse_accounts.2.1 Json.null "L".toList (fun _ h => Json.noConfusion h)

/-- Claim C9: the failed_count of a normalized report always equals the
length of its failed_sites, the input failed_count is never consulted, and a
well-formed report keeps its generated_at, source and failed_sites. -/
theorem claim_report_normalize {σ : Type} (now defaultSource : JStr)
    (report : RawFailedReport σ) :
    ((normalizeFailedReport now report defaultSource).failed_count =
      (normalizeFailedReport now report defaultSource).failed_sites.length) ∧
    (∀ c : Nat, normalizeFailedReport now { report with failed_count := c } defaultSource =
      normalizeFailedReport now report defaultSource) ∧
    (report.generated_at ≠ [] →
      (normalizeFailedReport now report defaultSource).generated_at = report.generated_at) ∧
    (report.source ≠ [] →
      (normalizeFailedReport now report defaultSource).source = report.source) ∧
    (∀ l, report.failed_sites = some l →
      (normalizeFailedReport now report defaultSource).failed_sites = l ∧
      (normalizeFailedReport now report defaultSource).failed_count = l.length) :=
  normalizeFailedReport_spec now defaultSource report

/-- Witness for claim C9: a well-formed report keeps its generated_at. -/
theorem claim_report_normalize_witness :
    (normalizeFailedReport "T".toList exReport "d".toList).generated_at =
      exReport.generated_at :=
  (claim_report_normalize "T".toList "d".toList exReport).2.2.1 (by decide)

/-- Claim C10: dedupeByKey silently excludes every item whose key is the
empty (falsy) string: no output item has an empty key, and two items that
both map to the empty key produce the empty list rather than the second
item. -/
theorem claim_dedupe_drops_empty :
    (∀ (α : Type) (items : List α) (k : α → JStr), ∀ x ∈ dedupeByKey items k, k x ≠ []) ∧
    (∀ (α : Type) (a b : α) (k : α → JStr), k a = [] → k b = [] →
      dedupeByKey [a, b] k = []) := by
  constructor
  · intro α items k x hx
    exact dedupe_mem_aux k items [] (fun p hp => absurd hp (List.not_mem_nil p)) x hx
  · intro α a b k ha hb
    unfold dedupeByKey
    rw [List.foldl_cons, List.foldl_cons, List.foldl_nil]
    unfold dedupeStep
    simp only []
    rw [if_pos ha, if_pos hb]
    rfl

/-- Witness for claim C10 at a concrete pair with empty keys. -/
theorem claim_dedupe_drops_empty_witness :
    dedupeByKey [(0 : Nat), 1] (fun _ => ([] : JStr)) = [] :=
  claim_dedupe_drops_empty.2 Nat 0 1 (fun _ => ([] : JStr)) rfl rfl
